import Mathlib

/-!
# nvimgotrack: change classifier, report ranking, fetch primitive and pipeline

A shallow embedding of `internal/detector/detector.go`, of the fetch primitive
and cache of `internal/github/github.go`, and of the analysis pipeline and the
helper `truncate` of `internal/tui/tui.go`, followed by theorems about them.

Modelling conventions.

* A Go `string` holding text decoded by `encoding/json` (commit messages,
  release names, bodies and tags, plugin names) is a Lean `String`: the
  decoder only produces valid UTF-8, so the text is a sequence of Unicode
  code points.  Where Go works on the bytes of a string (`len`, `<`), the
  embedding goes through `utf8Bytes`.
* A Go `[]byte` is a `List Nat` of byte values.
* Go `int` is a 64-bit signed integer; it is an `Int` here, and the only place
  where its range matters (`strconv.Atoi`) clamps explicitly.
* `time.Time` is an `Int` (an instant in nanoseconds); `After` is `>`.
* The compiled regular expressions are embedded by the matchers of the
  namespaces `breakingRe`, `deprecRe`, `featBangRe` and `semverRe`, written
  from the pattern texts under Go's `regexp` (RE2) semantics.
-/

set_option linter.dupNamespace false

namespace Nvimgotrack

/-! ## Strings -/

/-- UTF-8 encoding of one code point, as byte values. -/
def utf8EncodeChar (c : Char) : List Nat :=
  let n := c.toNat
  if n < 0x80 then [n]
  else if n < 0x800 then [0xC0 + n / 0x40, 0x80 + n % 0x40]
  else if n < 0x10000 then [0xE0 + n / 0x1000, 0x80 + n / 0x40 % 0x40, 0x80 + n % 0x40]
  else [0xF0 + n / 0x40000, 0x80 + n / 0x1000 % 0x40, 0x80 + n / 0x40 % 0x40, 0x80 + n % 0x40]

/-- The bytes of a Go string holding the text `s`. -/
def utf8Bytes (s : String) : List Nat :=
  s.data.flatMap utf8EncodeChar

/-- Lexicographic comparison of byte sequences: `a` is a proper initial part of
`b`, or the first byte at which they differ is smaller in `a`. -/
def bytesLess : List Nat → List Nat → Bool
  | [], [] => false
  | [], _ :: _ => true
  | _ :: _, [] => false
  | a :: as, b :: bs => if a < b then true else if b < a then false else bytesLess as bs

/-- Go's `a < b` on strings: lexicographic comparison of the bytes. -/
def stringLess (a b : String) : Bool :=
  bytesLess (utf8Bytes a) (utf8Bytes b)

/-- The element `strings.SplitN(msg, "\n", 2)[0]`: the text before the first
newline, or the whole text when there is none. -/
def firstLineOf (msg : String) : String :=
  String.mk (msg.data.takeWhile (fun c => c != '\n'))

/-! ## Regular expressions -/

/-- The class `\w` of RE2: ASCII letters, digits and underscore. -/
def isWordChar (c : Char) : Bool :=
  ('0' ≤ c && c ≤ '9') || ('a' ≤ c && c ≤ 'z') || ('A' ≤ c && c ≤ 'Z') || c == '_'

/-- The class `\d` of RE2: ASCII digits. -/
def isDigitChar (c : Char) : Bool :=
  '0' ≤ c && c ≤ '9'

/-- Whether the position between `prev` and `next` satisfies `\b`: a word
character on exactly one side, the ends of the text counting as non-word. -/
def wordBoundary (prev next : Option Char) : Bool :=
  (prev.any isWordChar) != (next.any isWordChar)

/-- Whether the pattern literal `p` accepts the input character `c`.  Without
`(?i)` the two must be equal.  Under `(?i)` the literal accepts every
character of its simple case-folding orbit: for an ASCII letter both cases,
and in addition U+212A (Kelvin sign) for `k` and U+017F (long s) for `s`. -/
def litAccepts (fold : Bool) (p c : Char) : Bool :=
  if fold then
    c.toLower == p.toLower
      || (p.toLower == 'k' && c == Char.ofNat 0x212A)
      || (p.toLower == 's' && c == Char.ofNat 0x017F)
  else c == p

/-- Match the literal `pat` at the head of the input.  `prev` is the character
before the current position; the result is the character before the end of the
match and the rest of the input. -/
def matchLit (fold : Bool) : List Char → Option Char → List Char → Option (Option Char × List Char)
  | [], prev, s => some (prev, s)
  | _ :: _, _, [] => none
  | p :: ps, _, c :: cs => if litAccepts fold p c then matchLit fold ps (some c) cs else none

/-- Unanchored search: whether the position matcher `m` succeeds at some
position of the input, scanning left to right. -/
def searchFrom (m : Option Char → List Char → Bool) : Option Char → List Char → Bool
  | prev, [] => m prev []
  | prev, c :: cs => m prev (c :: cs) || searchFrom m (some c) cs

/-- A pattern of the shape `(?i)\b(w1|w2|...)\b` tried at one position. -/
def cueAt (cues : List String) (prev : Option Char) (s : List Char) : Bool :=
  wordBoundary prev s.head? &&
    cues.any (fun w =>
      match matchLit true w.data prev s with
      | some (last, rest) => wordBoundary last rest.head?
      | none => false)

namespace breakingRe

/-- The alternatives of
`(?i)\b(breaking|BREAKING CHANGE|incompatible|removed|migration required)\b`. -/
def cues : List String :=
  ["breaking", "BREAKING CHANGE", "incompatible", "removed", "migration required"]

/-- The method `breakingRe.MatchString`. -/
def MatchString (s : String) : Bool :=
  searchFrom (cueAt cues) none s.data

end breakingRe

namespace deprecRe

/-- The alternatives of
`(?i)\b(deprecated|deprecation|will be removed|no longer supported)\b`. -/
def cues : List String :=
  ["deprecated", "deprecation", "will be removed", "no longer supported"]

/-- The method `deprecRe.MatchString`. -/
def MatchString (s : String) : Bool :=
  searchFrom (cueAt cues) none s.data

end deprecRe

namespace featBangRe

/-- The alternatives of the group in `(?m)^(feat|fix|refactor|chore)!:`. -/
def types : List String :=
  ["feat", "fix", "refactor", "chore"]

/-- The pattern tried at one position: `(?m)^` holds at the start of the text
and right after a newline; the match is case-sensitive. -/
def headerAt (prev : Option Char) (s : List Char) : Bool :=
  (prev.isNone || prev == some '\n') &&
    types.any (fun t => (matchLit false (t.data ++ ['!', ':']) prev s).isSome)

/-- The method `featBangRe.MatchString`. -/
def MatchString (s : String) : Bool :=
  searchFrom headerAt none s.data

end featBangRe

namespace semverRe

/-- A greedy `(\d+)`: the longest run of digits at the head of the input and
what follows it; `none` when the run is empty. -/
def digits1 (s : List Char) : Option (List Char × List Char) :=
  let run := s.takeWhile isDigitChar
  if run.isEmpty then none else some (run, s.dropWhile isDigitChar)

/-- The method `semverRe.FindStringSubmatch` for `^v?(\d+)\.(\d+)\.(\d+)`:
the whole match followed by the three groups, or `none` (Go: `nil`) when the
text does not match.  The pattern is anchored at the start of the text and is
deterministic: a digit run is always followed by a non-digit, so the greedy
choice is the only one. -/
def FindStringSubmatch (s : String) : Option (List String) :=
  let s0 := match s.data with
    | 'v' :: r => r
    | r => r
  let v := match s.data with
    | 'v' :: _ => ['v']
    | _ => []
  match digits1 s0 with
  | none => none
  | some (major, r1) =>
    match r1 with
    | '.' :: r2 =>
      match digits1 r2 with
      | none => none
      | some (minor, r3) =>
        match r3 with
        | '.' :: r4 =>
          match digits1 r4 with
          | none => none
          | some (patch, _) =>
            some [String.mk (v ++ major ++ ['.'] ++ minor ++ ['.'] ++ patch),
                  String.mk major, String.mk minor, String.mk patch]
        | _ => none
    | _ => none

end semverRe

/-- The largest value of a Go `int` on a 64-bit platform. -/
def maxInt : Int := 2 ^ 63 - 1

/-- The value of `strconv.Atoi` on a non-empty string of ASCII digits, the
only kind of argument `analyzeReleases` passes: the decimal value, clamped to
`maxInt` when it is out of range (Atoi then also returns an error, which the
caller discards). -/
def Atoi (s : String) : Int :=
  let n : Nat := s.data.foldl (fun acc c => 10 * acc + (c.toNat - '0'.toNat)) 0
  if (n : Int) > maxInt then maxInt else (n : Int)

/-! ## Data model (`internal/parser`, `internal/github/types.go`) -/

/-- The struct `parser.Plugin`. -/
structure Plugin where
  Name : String
  Branch : String
  Commit : String
  Owner : String
  Repo : String
  deriving DecidableEq, Repr, Inhabited

/-- The struct `github.Release`. -/
structure Release where
  TagName : String
  Name : String
  Body : String
  Draft : Bool
  Prerelease : Bool
  PublishedAt : Int
  HTMLURL : String
  TargetCommit : String
  deriving DecidableEq, Repr, Inhabited

/-- The struct `github.CommitAuthor`. -/
structure CommitAuthor where
  Name : String
  Date : Int
  deriving DecidableEq, Repr, Inhabited

/-- The struct `github.CommitDetail`. -/
structure CommitDetail where
  Message : String
  Author : CommitAuthor
  deriving DecidableEq, Repr, Inhabited

/-- The struct `github.Commit`. -/
structure Commit where
  SHA : String
  Commit : CommitDetail
  HTMLURL : String
  deriving DecidableEq, Repr, Inhabited

/-- The struct `github.CompareResult`. -/
structure CompareResult where
  Status : String
  AheadBy : Int
  BehindBy : Int
  TotalCommits : Int
  Commits : List Commit
  HTMLURL : String
  deriving DecidableEq, Repr, Inhabited

/-! ## Detector (`internal/detector/detector.go`) -/

/-- The type `Severity` with its four constants, in declaration order. -/
inductive Severity where
  | SeverityOK
  | SeverityFeature
  | SeverityDeprecation
  | SeverityBreaking
  deriving DecidableEq, Repr, Inhabited

open Severity

/-- The integer a severity constant stands for (`iota`). -/
def Severity.toInt : Severity → Int
  | SeverityOK => 0
  | SeverityFeature => 1
  | SeverityDeprecation => 2
  | SeverityBreaking => 3

/-- Go's `a > b` on severities. -/
def Severity.gt (a b : Severity) : Bool :=
  decide (a.toInt > b.toInt)

/-- Go's `a < b` on severities. -/
def Severity.lt (a b : Severity) : Bool :=
  decide (a.toInt < b.toInt)

/-- The struct `ReleaseInfo`. -/
structure ReleaseInfo where
  Tag : String
  Name : String
  Body : String
  URL : String
  Severity : Severity
  deriving DecidableEq, Repr, Inhabited

/-- The struct `PluginReport`. -/
structure PluginReport where
  Plugin : Plugin
  Severity : Severity
  BehindBy : Int
  Releases : List ReleaseInfo
  BreakingMsgs : List String
  DeprecMsgs : List String
  Error : String
  CompareURL : String
  deriving DecidableEq, Repr, Inhabited

/-! ### `sort.Slice` -/

/-- The inner loop of the insertion sort of Go's `sort` package,
`for j := i; j > a && less(j, j-1); j-- { swap(j, j-1) }`, on the already
sorted part of the slice held in reverse (its head is the element at `j-1`):
`x` moves towards the front past every element it is less than. -/
def sinkLeft {α : Type} (less : α → α → Bool) (x : α) : List α → List α
  | [] => [x]
  | y :: rest => if less x y then y :: sinkLeft less x rest else x :: y :: rest

/-- The function `sort.Slice(l, less)`, returning the reordered slice.  The
source needs Go 1.21 or later (it calls the builtin `min`), where `sort.Slice`
is the pattern-defeating quicksort and sorts a slice of at most 12 elements
with exactly this insertion sort (`insertionSort_func`).  For a longer
slice it returns some permutation without inversions under `less`; when `less`
orders the elements strictly and totally that permutation is this one
(`sortSlice_unique`). -/
def sortSlice {α : Type} (less : α → α → Bool) (l : List α) : List α :=
  (l.foldl (fun sorted x => sinkLeft less x sorted) []).reverse

/-! ### `analyzeReleases` -/

/-- The variables the loop of `analyzeReleases` carries: the index `i` of the
`range`, `prevMajor` and `infos`. -/
structure ScanState where
  i : Nat
  prevMajor : Int
  infos : List ReleaseInfo
  deriving DecidableEq, Repr

/-- One iteration of the loop of `analyzeReleases` on the release `r`. -/
def analyzeStep (st : ScanState) (r : Release) : ScanState :=
  if r.Draft then
    { st with i := st.i + 1 }
  else
    let info : ReleaseInfo :=
      { Tag := r.TagName, Name := r.Name, Body := r.Body, URL := r.HTMLURL,
        Severity := SeverityFeature }
    -- Check for semver major bumps
    let (info, prevMajor) :=
      match semverRe.FindStringSubmatch r.TagName with
      | some groups =>
        let major := Atoi (groups.getD 1 "")
        let info :=
          if decide (st.i > 0) && decide (st.prevMajor ≥ 0) && decide (major > st.prevMajor)
          then { info with Severity := SeverityBreaking } else info
        (info, major)
      | none => (info, st.prevMajor)
    -- Check release notes for breaking keywords
    let fullText := r.Name ++ " " ++ r.Body
    let info :=
      if breakingRe.MatchString fullText then
        { info with Severity := SeverityBreaking }
      else if deprecRe.MatchString fullText && info.Severity.lt SeverityDeprecation then
        { info with Severity := SeverityDeprecation }
      else info
    { i := st.i + 1, prevMajor := prevMajor, infos := st.infos ++ [info] }

/-- The comparison handed to `sort.Slice` in `analyzeReleases`:
`releases[i].PublishedAt.After(releases[j].PublishedAt)`. -/
def publishedAfter (a b : Release) : Bool :=
  decide (a.PublishedAt > b.PublishedAt)

/-- The function `analyzeReleases`; the second parameter is unused, as in the
source. -/
def analyzeReleases (releases : List Release) (_commit : String) : List ReleaseInfo :=
  -- Sort releases by published date, newest first
  let releases := sortSlice publishedAfter releases
  (releases.foldl analyzeStep { i := 0, prevMajor := -1, infos := [] }).infos

/-! ### `Analyze` -/

/-- A request made to the client. -/
inductive Call where
  | CompareCommits (owner repo base head : String)
  | GetReleases (owner repo : String)
  deriving DecidableEq, Repr

/-- The `*github.Client` as `Analyze` sees it: what each of the two operations
answers (an error is represented by the text of its `Error()` method), and the
log of the requests made so far. -/
structure Client where
  compareAnswer : String → String → String → String → Except String CompareResult
  releasesAnswer : String → String → Except String (List Release)
  calls : List Call

/-- The method `Client.CompareCommits`. -/
def Client.CompareCommits (c : Client) (owner repo base head : String) :
    Except String CompareResult × Client :=
  (c.compareAnswer owner repo base head,
    { c with calls := c.calls ++ [Call.CompareCommits owner repo base head] })

/-- The method `Client.GetReleases`. -/
def Client.GetReleases (c : Client) (owner repo : String) :
    Except String (List Release) × Client :=
  (c.releasesAnswer owner repo, { c with calls := c.calls ++ [Call.GetReleases owner repo] })

/-- The body of the loop over `compare.Commits` in `Analyze`. -/
def scanCommit (report : PluginReport) (c : Commit) : PluginReport :=
  let msg := c.Commit.Message
  let firstLine := firstLineOf msg
  if breakingRe.MatchString msg || featBangRe.MatchString msg then
    { report with BreakingMsgs := report.BreakingMsgs ++ [firstLine] }
  else if deprecRe.MatchString msg then
    { report with DeprecMsgs := report.DeprecMsgs ++ [firstLine] }
  else report

/-- The body of the loop over `report.Releases` in `Analyze`. -/
def raiseTo (report : PluginReport) (r : ReleaseInfo) : PluginReport :=
  if r.Severity.gt report.Severity then { report with Severity := r.Severity } else report

/-- The function `Analyze`, returning the report and the client after the
calls. -/
def Analyze (client : Client) (plugin : Plugin) : PluginReport × Client :=
  let report : PluginReport :=
    { Plugin := plugin, Severity := SeverityOK, BehindBy := 0, Releases := [],
      BreakingMsgs := [], DeprecMsgs := [], Error := "", CompareURL := "" }
  -- 1. Compare commits
  match client.CompareCommits plugin.Owner plugin.Repo plugin.Commit plugin.Branch with
  | (Except.error err, client) =>
    ({ report with Error := "compare failed: " ++ err }, client)
  | (Except.ok compare, client) =>
    let report := { report with BehindBy := compare.TotalCommits, CompareURL := compare.HTMLURL }
    if compare.TotalCommits = 0 then
      ({ report with Severity := SeverityOK }, client)
    else
      let report := compare.Commits.foldl scanCommit report
      let (releases, client) := client.GetReleases plugin.Owner plugin.Repo
      let report :=
        match releases with
        | Except.ok releases => { report with Releases := analyzeReleases releases plugin.Commit }
        | Except.error _ => report
      let report := { report with Severity := SeverityOK }
      let report :=
        if report.BehindBy > (0 : Int) then { report with Severity := SeverityFeature }
        else report
      let report := report.Releases.foldl raiseTo report
      let report :=
        if report.BreakingMsgs.length > 0 then
          { report with Severity := SeverityBreaking }
        else if decide (report.DeprecMsgs.length > 0) && report.Severity.lt SeverityDeprecation then
          { report with Severity := SeverityDeprecation }
        else report
      (report, client)

/-! ### `SortReports` -/

/-- The comparison handed to `sort.Slice` in `SortReports`. -/
def reportLess (a b : PluginReport) : Bool :=
  if a.Severity ≠ b.Severity then a.Severity.gt b.Severity
  else stringLess a.Plugin.Name b.Plugin.Name

/-- The function `SortReports`, returning the reordered slice. -/
def SortReports (reports : List PluginReport) : List PluginReport :=
  sortSlice reportLess reports

/-! ## Fetch primitive (`internal/github/github.go`) -/

namespace github

/-- The configuration fields of the struct `Client`. -/
structure Client where
  token : String
  cacheDir : String
  noCache : Bool
  deriving DecidableEq, Repr

/-- A file of the cache directory: its content and modification time. -/
structure CacheFile where
  data : List Nat
  modTime : Int
  deriving DecidableEq, Repr

/-- An HTTP request as `get` builds it. -/
structure Request where
  method : String
  url : String
  headers : List (String × String)
  deriving DecidableEq, Repr

/-- What the world outside the client looks like during one call of `get`:
the files by path, whether the cache directory can be written (the writes are
best-effort and their errors are dropped), the current time, and the log of
the HTTP requests sent so far. -/
structure World where
  files : String → Option CacheFile
  writable : Bool
  now : Int
  requests : List Request

/-- What `httpClient.Do` followed by `io.ReadAll` gives for a request. -/
inductive RoundTrip where
  | doFailed (err : String)
  | readFailed (err : String)
  | response (StatusCode : Int) (body : List Nat)
  deriving DecidableEq, Repr

/-- The network: the error of `http.NewRequest` for a URL, if any, and the
outcome of sending a request. -/
structure Net where
  newRequestError : String → Option String
  roundTrip : Request → RoundTrip

/-- The errors `get` returns, one constructor per `fmt.Errorf` of the source
plus the error of `json.Unmarshal`. -/
inductive GetError where
  | buildingRequest (err : String)
  | requestFailed (err : String)
  | readingResponse (err : String)
  | notFound (url : String)
  | rateLimited
  | httpStatus (StatusCode : Int) (snippet : List Nat)
  | unmarshal (err : String)
  deriving DecidableEq, Repr

/-- The text of an error, as bytes (the snippet of `httpStatus` is raw
response bytes). -/
def GetError.Error : GetError → List Nat
  | GetError.buildingRequest err => utf8Bytes ("building request: " ++ err)
  | GetError.requestFailed err => utf8Bytes ("request failed: " ++ err)
  | GetError.readingResponse err => utf8Bytes ("reading response: " ++ err)
  | GetError.notFound url => utf8Bytes ("not found: " ++ url)
  | GetError.rateLimited =>
    utf8Bytes "rate limited — set GITHUB_TOKEN env var for higher limits"
  | GetError.httpStatus code snippet => utf8Bytes ("HTTP " ++ toString code ++ ": ") ++ snippet
  | GetError.unmarshal err => utf8Bytes err

/-- The constant `time.Hour`, in nanoseconds. -/
def hour : Int := 3600 * 1000000000

/-- The function `filepath.Join(dir, name)` for a cleaned directory path and a
file name free of separators, the only way `cachePath` calls it: an empty
directory is dropped. -/
def filepathJoin (dir name : String) : String :=
  if dir = "" then name else dir ++ "/" ++ name

/-- The method `Client.cachePath`.  `safe` only ever holds ASCII characters,
so its length in bytes is its length in characters. -/
def Client.cachePath (c : Client) (url : String) : String :=
  let safe := url.data.foldl (fun safe r =>
    if (decide ('a' ≤ r) && decide (r ≤ 'z')) || (decide ('A' ≤ r) && decide (r ≤ 'Z'))
        || (decide ('0' ≤ r) && decide (r ≤ '9')) then
      safe ++ String.singleton r
    else
      safe ++ "_") ""
  let safe := if safe.length > 200 then String.mk (safe.data.take 200) else safe
  filepathJoin c.cacheDir (safe ++ ".json")

/-- The method `Client.readCache`: the payload, or an error when the file is
missing or older than one hour.  A file that `os.Stat` finds is taken to be
readable by `os.ReadFile`. -/
def Client.readCache (c : Client) (w : World) (url : String) : Except String (List Nat) :=
  let path := c.cachePath url
  match w.files path with
  | none => Except.error "stat failed"
  | some info =>
    if w.now - info.modTime > 1 * hour then Except.error "cache expired"
    else Except.ok info.data

/-- The method `Client.writeCache`. -/
def Client.writeCache (c : Client) (w : World) (url : String) (data : List Nat) : World :=
  let path := c.cachePath url
  if w.writable then
    { w with files := fun p => if p = path then some { data := data, modTime := w.now }
                               else w.files p }
  else w

/-- The call `json.Unmarshal(data, target)` with its error wrapped. -/
def decodeInto {α : Type} (unmarshal : List Nat → Except String α) (data : List Nat) :
    Except GetError α :=
  match unmarshal data with
  | Except.ok v => Except.ok v
  | Except.error err => Except.error (GetError.unmarshal err)

/-- The request `get` builds for a URL: the method, the two fixed headers and,
when a token is configured, the authorization header. -/
def Client.request (c : Client) (url : String) : Request :=
  { method := "GET", url := url,
    headers :=
      [("Accept", "application/vnd.github.v3+json"), ("User-Agent", "nvimgotrack/1.0")]
        ++ (if c.token ≠ "" then [("Authorization", "Bearer " ++ c.token)] else []) }

/-- The method `Client.get`: the decoded payload or an error, and the world
afterwards.  `unmarshal` stands for `json.Unmarshal` into the target. -/
def Client.get {α : Type} (c : Client) (net : Net) (unmarshal : List Nat → Except String α)
    (w : World) (url : String) : Except GetError α × World :=
  -- Try cache first
  let cached : Option (List Nat) :=
    if !c.noCache then
      match c.readCache w url with
      | Except.ok data => some data
      | Except.error _ => none
    else none
  match cached with
  | some data => (decodeInto unmarshal data, w)
  | none =>
    match net.newRequestError url with
    | some err => (Except.error (GetError.buildingRequest err), w)
    | none =>
      let req := c.request url
      let w := { w with requests := w.requests ++ [req] }
      match net.roundTrip req with
      | RoundTrip.doFailed err => (Except.error (GetError.requestFailed err), w)
      | RoundTrip.readFailed err => (Except.error (GetError.readingResponse err), w)
      | RoundTrip.response StatusCode body =>
        if StatusCode = 404 then
          (Except.error (GetError.notFound url), w)
        else if StatusCode = 403 ∨ StatusCode = 429 then
          (Except.error GetError.rateLimited, w)
        else if StatusCode ≠ 200 then
          (Except.error (GetError.httpStatus StatusCode (body.take (min 200 body.length))), w)
        else
          let w := if !c.noCache then c.writeCache w url body else w
          (decodeInto unmarshal body, w)

end github

/-! ## Derived notions used by the statements -/

/-- The breaking signal of `Analyze`: the condition of its first `if` on a
commit message. -/
def breakingSignal (msg : String) : Bool :=
  breakingRe.MatchString msg || featBangRe.MatchString msg

/-- The first lines `Analyze` records as breaking for a commit list. -/
def breakingLines (cs : List Commit) : List String :=
  (cs.filter (fun c => breakingSignal c.Commit.Message)).map
    (fun c => firstLineOf c.Commit.Message)

/-- The first lines `Analyze` records as deprecations for a commit list. -/
def deprecLines (cs : List Commit) : List String :=
  (cs.filter (fun c => !breakingSignal c.Commit.Message
      && deprecRe.MatchString c.Commit.Message)).map
    (fun c => firstLineOf c.Commit.Message)

/-- The release entries of a report for an outcome of the release listing. -/
def releasesOf (res : Except String (List Release)) (commit : String) : List ReleaseInfo :=
  match res with
  | Except.ok rs => analyzeReleases rs commit
  | Except.error _ => []

/-- The severity the loop over the releases reaches from `s`. -/
def raisedSeverity (s : Severity) (rels : List ReleaseInfo) : Severity :=
  rels.foldl (fun s r => if r.Severity.gt s then r.Severity else s) s

/-- The severity `Analyze` ends with, from the four things it depends on. -/
def finalSeverity (behind : Int) (rels : List ReleaseInfo) (brk dep : List String) : Severity :=
  let s := raisedSeverity (if behind > 0 then SeverityFeature else SeverityOK) rels
  if brk.length > 0 then SeverityBreaking
  else if decide (dep.length > 0) && s.lt SeverityDeprecation then SeverityDeprecation
  else s

/-- The major number `analyzeReleases` parses from the tag of a release, when
the tag matches `semverRe`. -/
def majorOf (r : Release) : Option Int :=
  (semverRe.FindStringSubmatch r.TagName).map (fun groups => Atoi (groups.getD 1 ""))

/-- Whether the major-version rule of `analyzeReleases` fires for the release
`r` in the loop state `st`. -/
def majorJump (st : ScanState) (r : Release) : Bool :=
  match majorOf r with
  | some major => decide (st.i > 0) && decide (st.prevMajor ≥ 0) && decide (major > st.prevMajor)
  | none => false

/-- The severity of a release entry after the scan of `Name + " " + Body`,
from its severity `s` before the scan. -/
def textSeverity (s : Severity) (r : Release) : Severity :=
  if breakingRe.MatchString (r.Name ++ " " ++ r.Body) then SeverityBreaking
  else if deprecRe.MatchString (r.Name ++ " " ++ r.Body) && s.lt SeverityDeprecation then
    SeverityDeprecation
  else s

/-- The entry `analyzeReleases` appends for the non-draft release `r` in the
loop state `st`. -/
def entryOf (st : ScanState) (r : Release) : ReleaseInfo :=
  { Tag := r.TagName, Name := r.Name, Body := r.Body, URL := r.HTMLURL,
    Severity := textSeverity (if majorJump st r then SeverityBreaking else SeverityFeature) r }

/-- Two loop states of `analyzeReleases` that differ at most in the index `i`,
the index being positive in both once a major number has been seen. -/
def sameScan (st st' : ScanState) : Prop :=
  st.prevMajor = st'.prevMajor ∧ st.infos = st'.infos ∧
    (0 ≤ st.prevMajor → 0 < st.i ∧ 0 < st'.i)

/-- The fields a release entry copies from its release. -/
def releaseKey (r : Release) : String × String × String × String :=
  (r.TagName, r.Name, r.Body, r.HTMLURL)

/-- The fields of a release entry that are copied from its release. -/
def entryKey (e : ReleaseInfo) : String × String × String × String :=
  (e.Tag, e.Name, e.Body, e.URL)

/-! ## Sample data -/

/-- A plugin entry. -/
def samplePlugin : Plugin :=
  { Name := "telescope.nvim", Branch := "master", Commit := "abc123",
    Owner := "nvim-telescope", Repo := "telescope.nvim" }

/-- A client with fixed answers and an empty log. -/
def sampleClient (compare : Except String CompareResult)
    (releases : Except String (List Release)) : Client :=
  { compareAnswer := fun _ _ _ _ => compare, releasesAnswer := fun _ _ => releases, calls := [] }

/-- A commit with the given message. -/
def sampleCommit (msg : String) : Commit :=
  { SHA := "", Commit := { Message := msg, Author := { Name := "", Date := 0 } }, HTMLURL := "" }

/-- A comparison result with the given count and commit messages. -/
def sampleCompare (total : Int) (msgs : List String) : CompareResult :=
  { Status := "ahead", AheadBy := total, BehindBy := 0, TotalCommits := total,
    Commits := msgs.map sampleCommit, HTMLURL := "https://github.com/o/r/compare/a...b" }

/-- A release with the given tag, name, body, publish time and draft flag. -/
def sampleRelease (tag name body : String) (publishedAt : Int) (draft : Bool) : Release :=
  { TagName := tag, Name := name, Body := body, Draft := draft, Prerelease := false,
    PublishedAt := publishedAt, HTMLURL := "", TargetCommit := "" }

/-- A report with the given plugin name and severity. -/
def sampleReport (name : String) (s : Severity) : PluginReport :=
  { Plugin := { Name := name, Branch := "", Commit := "", Owner := "", Repo := "" },
    Severity := s, BehindBy := 0, Releases := [], BreakingMsgs := [], DeprecMsgs := [],
    Error := "", CompareURL := "" }

/-- A client whose comparison lists a deprecation commit and whose release
listing holds one plain release. -/
def sampleClientDeprec : Client :=
  sampleClient
    (Except.ok (sampleCompare 2 ["chore: deprecated old module", "feat: add new feature"]))
    (Except.ok [sampleRelease "v1.5.0" "Feature release" "Added new features" 10 false])

/-- The two properties of a comparison that make it a strict weak ordering:
it is asymmetric, and being not less is transitive. -/
structure StrictWeak {α : Type} (less : α → α → Bool) : Prop where
  asymm : ∀ a b, less a b = true → less b a = false
  negTrans : ∀ a b c, less a b = false → less b c = false → less a c = false

/-- The ranking relation between an earlier report `a` and a later report `b`:
`a` has the greater or equal severity and, when the severities are equal, the
name of `b` is not byte-wise less than the name of `a`. -/
def rankedBefore (a b : PluginReport) : Prop :=
  b.Severity.toInt ≤ a.Severity.toInt ∧
    (a.Severity = b.Severity → stringLess b.Plugin.Name a.Plugin.Name = false)

/-- Releases with distinct publish times, listed out of order, one of them a
draft with breaking text. -/
def sampleReleasesDraft : List Release :=
  [sampleRelease "v1.0.0" "First" "Initial release" 1 false,
   sampleRelease "v3.0.0" "BREAKING: rewrite" "Everything was removed" 5 true,
   sampleRelease "v2.0.0" "Second" "More features" 3 false]

/-- The releases of a project that went from 1.4.0 over 1.5.0 to 2.0.0, newest
first, none with a cue in its text. -/
def sampleReleasesJump : List Release :=
  [sampleRelease "v2.0.0" "Second generation" "New engine" 3 false,
   sampleRelease "v1.5.0" "Feature release" "Added new features" 2 false,
   sampleRelease "v1.4.0" "Maintenance" "Small fixes" 1 false]

namespace github

/-- A client with caching enabled and no token. -/
def sampleClient : Client :=
  { token := "", cacheDir := "/home/u/.cache/nvimgotrack", noCache := false }

/-- A world with an empty cache directory. -/
def sampleWorld : World :=
  { files := fun _ => none, writable := true, now := 1000, requests := [] }

/-- A network that answers every request with the given status and body. -/
def sampleNet (status : Int) (body : List Nat) : Net :=
  { newRequestError := fun _ => none, roundTrip := fun _ => RoundTrip.response status body }

/-- A decoder that accepts every payload and returns it. -/
def sampleUnmarshal (data : List Nat) : Except String (List Nat) :=
  Except.ok data

/-- The URL of a release listing. -/
def sampleURL : String :=
  "https://api.github.com/repos/o/r/releases?per_page=30"

end github

/-! ## Presentation helpers (`internal/tui/tui.go`) -/

namespace tui

/-- The slice expression `s[:hi]` of Go on the bytes of a string: `none` stands
for the run-time panic "slice bounds out of range", raised when `hi` is
negative or exceeds the length. -/
def sliceTo (s : List Nat) (hi : Int) : Option (List Nat) :=
  if hi < 0 ∨ hi > (s.length : Int) then none else some (s.take hi.toNat)

/-- The function `truncate`, on the bytes of `s` (`len` and slicing count
bytes); `none` stands for a run-time panic. -/
def truncate (s : String) (maxLen : Int) : Option (List Nat) :=
  let maxLen := if maxLen ≤ 0 then 80 else maxLen
  if ((utf8Bytes s).length : Int) > maxLen then
    match sliceTo (utf8Bytes s) (maxLen - 3) with
    | some head => some (head ++ utf8Bytes "...")
    | none => none
  else some (utf8Bytes s)

end tui

namespace github

/-- The character `cachePath` writes for the character `r` of the URL: `r`
itself when it is an ASCII letter or digit, an underscore otherwise. -/
def safeChar (r : Char) : Char :=
  if (decide ('a' ≤ r) && decide (r ≤ 'z')) || (decide ('A' ≤ r) && decide (r ≤ 'Z'))
      || (decide ('0' ≤ r) && decide (r ≤ '9')) then r else '_'

/-- The file name, without the extension, that `cachePath` derives from a URL:
every character replaced by its `safeChar`, cut to the first 200. -/
def safeName (url : String) : String :=
  String.mk ((url.data.map safeChar).take 200)

/-- The URL of the release listing of a repository, as `GetReleases` builds
it. -/
def releasesURL (owner repo : String) : String :=
  "https://api.github.com/repos/" ++ owner ++ "/" ++ repo ++ "/releases?per_page=30"

/-- A URL of 231 characters ending in the given text. -/
def longURL (ending : String) : String :=
  "https://api.github.com/repos/o/" ++ String.mk (List.replicate 200 'a') ++ ending

end github

namespace github

/-- The world some time after `sampleWorld`, with the given files. -/
def sampleWorldAt (now : Int) (files : String → Option CacheFile) : World :=
  { files := files, writable := true, now := now, requests := [] }

end github

/-! ## Cue words, declaratively -/

/-- The text `word` spells the cue `cue` in some letter case: character by
character, `word` has what the pattern character accepts under `(?i)`. -/
def spellsCue (word cue : List Char) : Prop :=
  List.Forall₂ (fun c p => litAccepts true p c = true) word cue

/-- The text contains one of the cues as a word, in any letter case: it is
`before ++ word ++ after` where `word` spells a cue, `before` does not end in a
word character and `after` does not start with one. -/
def containsCue (cues : List String) (text : String) : Prop :=
  ∃ (before word after : List Char) (cue : String),
    cue ∈ cues ∧ text.data = before ++ word ++ after ∧ spellsCue word cue.data ∧
    (∀ c, before.getLast? = some c → isWordChar c = false) ∧
    (∀ c, after.head? = some c → isWordChar c = false)

/-- The text has a line that begins with `<type>!:`, the type being one of
feat, fix, refactor and chore. -/
def hasBangHeader (text : String) : Prop :=
  ∃ (before after : List Char) (t : String),
    t ∈ ["feat", "fix", "refactor", "chore"] ∧
    text.data = before ++ (t.data ++ ['!', ':'] ++ after) ∧
    (before = [] ∨ before.getLast? = some '\n')

/-- A pattern character that, under `(?i)`, accepts word characters only: an
ASCII letter or digit or the underscore, other than `k` and `s`. -/
def wordOnly (p : Char) : Bool :=
  isWordChar p.toLower && p.toLower != 'k' && p.toLower != 's'

/-- A cue that is not empty and begins and ends with a `wordOnly` character. -/
def wordCue (cue : String) : Bool :=
  match cue.data.head?, cue.data.getLast? with
  | some a, some b => wordOnly a && wordOnly b
  | _, _ => false

/-- The loop of `analyzeReleases` over the slice as `sort.Slice` left it, so
that `analyzeReleases releases commit` is `analyzeSorted` of the sorted
releases. -/
def analyzeSorted (sorted : List Release) : List ReleaseInfo :=
  (sorted.foldl analyzeStep { i := 0, prevMajor := -1, infos := [] }).infos

/-- The loop state of `analyzeReleases` when the loop has gone through the
releases `pre`, the first releases of the sorted slice. -/
def scanAfter (pre : List Release) : ScanState :=
  pre.foldl analyzeStep { i := 0, prevMajor := -1, infos := [] }

/-- The major number of the last release among `pre` that is not a draft and
whose tag matches `semverRe`, if there is one. -/
def previousMajor (pre : List Release) : Option Int :=
  ((pre.filter (fun r => !r.Draft)).filterMap majorOf).getLast?

/-- What `analyzeReleases` guarantees about the entry `e` it produces for the
non-draft release `r` met after the releases `pre` of the sorted slice: the
entry copies the tag, name, body and URL of the release, its severity is at
least Feature, it is Breaking when the text `Name + " " + Body` contains a
breaking cue, and otherwise it is Breaking when the major-version rule fires
for `r` in the loop state after `pre`, else Deprecation when the text contains
a deprecation cue, else Feature. -/
def entryAfter (pre : List Release) (r : Release) (e : ReleaseInfo) : Prop :=
  entryKey e = releaseKey r ∧
  SeverityFeature.toInt ≤ e.Severity.toInt ∧
  (containsCue breakingRe.cues (r.Name ++ " " ++ r.Body) → e.Severity = SeverityBreaking) ∧
  (¬ containsCue breakingRe.cues (r.Name ++ " " ++ r.Body) →
    containsCue deprecRe.cues (r.Name ++ " " ++ r.Body) →
    e.Severity
      = if majorJump (scanAfter pre) r then SeverityBreaking else SeverityDeprecation) ∧
  (¬ containsCue breakingRe.cues (r.Name ++ " " ++ r.Body) →
    ¬ containsCue deprecRe.cues (r.Name ++ " " ++ r.Body) →
    e.Severity = if majorJump (scanAfter pre) r then SeverityBreaking else SeverityFeature)

/-- The release v1.0.0, published at time 3, without a cue in its text. -/
def sampleStaysNewest : Release :=
  sampleRelease "v1.0.0" "First" "Initial release" 3 false

/-- The release v2.0.0, published at time 2, whose text contains a deprecation
cue and no breaking cue. -/
def sampleStaysJump : Release :=
  sampleRelease "v2.0.0" "Deprecation notice" "This API is deprecated and will change soon"
    2 false

/-- The release nightly, published at time 1, whose tag is no version. -/
def sampleStaysNightly : Release :=
  sampleRelease "nightly" "Nightly" "Latest build" 1 false

/-- Three releases with distinct publish times, not listed newest first: the
loop meets v1.0.0, then v2.0.0, then nightly. -/
def sampleReleasesStays : List Release :=
  [sampleStaysJump, sampleStaysNightly, sampleStaysNewest]

/-- Releases as the API lists them while two drafts are pending: a draft has no
publish time, so both drafts carry the zero time; both have breaking text. -/
def sampleReleasesTwoDrafts : List Release :=
  [sampleRelease "v2.1.0" "Next" "BREAKING CHANGE: pending" 0 true,
   sampleRelease "v2.0.0" "Second" "More features" 3 false,
   sampleRelease "v2.2.0" "After next" "Removed everything" 0 true,
   sampleRelease "v1.0.0" "First" "Initial release" 1 false]

/-- The releases of `TestAnalyzeReleasesSeverity`, which carry no publish
time (the zero time). -/
def sampleReleasesTest : List Release :=
  [sampleRelease "v2.0.0" "BREAKING: Major rewrite" "This is a breaking release" 0 false,
   sampleRelease "v1.5.0" "Feature release" "Added new features" 0 false,
   sampleRelease "v1.4.0" "Deprecation notice" "This API is deprecated and will change soon"
     0 false]

/-- A client whose comparison lists a commit with a cue word on its third
line, a commit without any cue and a commit with a deprecation cue. -/
def sampleClientLines : Client :=
  sampleClient
    (Except.ok (sampleCompare 3
      ["refactor: new loader\n\nThe old loader was REMOVED.", "feat: add new feature",
       "chore: deprecated old module"]))
    (Except.ok [])

/-! ## `sort.Slice` on a slice of 13 elements

Go's `sort.Slice(x, less)` is `pdqsort_func(data, 0, n, bits.Len(n))` of the
package `sort`.  For `n ≤ 12` that is the insertion sort embedded as
`sortSlice`.  For `n = 13` the first round of the quicksort runs once
(`choosePivot_func`, `partialInsertionSort_func`, `partition_func`), after
which both parts have at most 12 elements and are sorted by insertion; none of
the other branches of `pdqsort_func` can be reached (`limit` is 4, the last
partition counts as balanced, the slice starts at index 0 and is shorter than
50).  The definitions below embed this case from the library source. -/

/-- The call `data.Less(i, j)` on the current content of the slice. -/
def lessAt {α : Type} (less : α → α → Bool) (data : List α) (i j : Nat) : Bool :=
  match data[i]?, data[j]? with
  | some x, some y => less x y
  | _, _ => false

/-- The call `data.Swap(i, j)`. -/
def swapAt {α : Type} (data : List α) (i j : Nat) : List α :=
  match data[i]?, data[j]? with
  | some x, some y => (data.set i y).set j x
  | _, _ => data

/-- The function `order2_func`: the two indices in the order of their elements,
and the count of swaps. -/
def order2 {α : Type} (less : α → α → Bool) (data : List α) (a b swaps : Nat) :
    Nat × Nat × Nat :=
  if lessAt less data b a then (b, a, swaps + 1) else (a, b, swaps)

/-- The function `median_func`: the index of the median of three elements, and
the count of swaps. -/
def median {α : Type} (less : α → α → Bool) (data : List α) (a b c swaps : Nat) : Nat × Nat :=
  let (a, b, swaps) := order2 less data a b swaps
  let (b, _, swaps) := order2 less data b c swaps
  let (_, b, swaps) := order2 less data a b swaps
  (b, swaps)

/-- The function `choosePivot_func(data, 0, l)` for `8 ≤ l < 50`: the index of
the median of the elements at `l/4`, `l/4*2` and `l/4*3`, and whether the hint
is `increasingHint` (no swap was needed). -/
def choosePivot {α : Type} (less : α → α → Bool) (data : List α) : Nat × Bool :=
  let l := data.length
  let (j, swaps) := median less data (l / 4 * 1) (l / 4 * 2) (l / 4 * 3) 0
  (j, swaps == 0)

/-- The function `partialInsertionSort_func` on a slice shorter than 50
elements: it changes nothing and reports whether the slice is already sorted,
that is, whether no element is less than the one before it. -/
def partialInsertionSort {α : Type} (less : α → α → Bool) (data : List α) : Bool :=
  (List.range data.length).all (fun i => i == 0 || !lessAt less data i (i - 1))

/-- The loop `for i <= j && data.Less(i, a) { i++ }` of `partition_func`, with
`a = 0`. -/
def scanUp {α : Type} (less : α → α → Bool) (data : List α) (j : Nat) : Nat → Nat → Nat
  | 0, i => i
  | fuel + 1, i =>
    if decide (i ≤ j) && lessAt less data i 0 then scanUp less data j fuel (i + 1) else i

/-- The loop `for i <= j && !data.Less(j, a) { j-- }` of `partition_func`, with
`a = 0`.  The index `i` is at least 1, so `j` stays a natural number. -/
def scanDown {α : Type} (less : α → α → Bool) (data : List α) (i : Nat) : Nat → Nat → Nat
  | 0, j => j
  | fuel + 1, j =>
    if decide (i ≤ j) && !lessAt less data j 0 then scanDown less data i fuel (j - 1) else j

/-- The main loop of `partition_func`, with `a = 0`: the slice and the final
`j`. -/
def partitionLoop {α : Type} (less : α → α → Bool) : Nat → List α → Nat → Nat → List α × Nat
  | 0, data, _, j => (data, j)
  | fuel + 1, data, i, j =>
    let i := scanUp less data j data.length i
    let j := scanDown less data i data.length j
    if i > j then (data, j)
    else partitionLoop less fuel (swapAt data i j) (i + 1) (j - 1)

/-- The function `partition_func(data, 0, n, pivot)`: the slice afterwards and
the new index of the pivot. -/
def partition {α : Type} (less : α → α → Bool) (data : List α) (pivot : Nat) : List α × Nat :=
  let data := swapAt data 0 pivot
  let i := scanUp less data (data.length - 1) data.length 1
  let j := scanDown less data i data.length (data.length - 1)
  if i > j then
    (swapAt data j 0, j)
  else
    let (data, j) := partitionLoop less data.length (swapAt data i j) (i + 1) (j - 1)
    (swapAt data j 0, j)

/-- The function `pdqsort_func(data, 0, 13, 4)`, that is `sort.Slice` on a
slice of 13 elements. -/
def pdqsort13 {α : Type} (less : α → α → Bool) (data : List α) : List α :=
  let (pivot, increasing) := choosePivot less data
  if increasing && partialInsertionSort less data then data
  else
    let (data, mid) := partition less data pivot
    sortSlice less (data.take mid) ++ (data.drop mid).take 1
      ++ sortSlice less (data.drop (mid + 1))

/-- Thirteen releases, two of them (`x1` before `x2`) published at the same
time 91; the numbers are the publish times. -/
def sampleReleases13 : List Release :=
  [sampleRelease "r99" "" "" 99 false, sampleRelease "x1" "" "" 91 false,
   sampleRelease "x2" "" "" 91 false, sampleRelease "r98" "" "" 98 false,
   sampleRelease "r97" "" "" 97 false, sampleRelease "r96" "" "" 96 false,
   sampleRelease "r95" "" "" 95 false, sampleRelease "r94" "" "" 94 false,
   sampleRelease "r93" "" "" 93 false, sampleRelease "r92" "" "" 92 false,
   sampleRelease "r90" "" "" 90 false, sampleRelease "r89" "" "" 89 false,
   sampleRelease "r100" "" "" 100 false]

/-- What this development relies on about the slice `out` that
`sort.Slice(l, less)` leaves: it is a permutation of `l` in which no element
is less than an element before it, and for at most 12 elements it is the
result of the insertion sort `sortSlice`. -/
def SortSliceResult {α : Type} (less : α → α → Bool) (l out : List α) : Prop :=
  out.Perm l ∧ out.Pairwise (fun a b => less b a = false) ∧
    (l.length ≤ 12 → out = sortSlice less l)

/-! ## Analysis pipeline (`internal/tui/tui.go`) -/

namespace tui

/-- The type `view` with its two constants. -/
inductive View where
  | viewList
  | viewDetail
  deriving DecidableEq, Repr

/-- The constant `filterAll` of the type `filter`. -/
def filterAll : Int := 0

/-- The constant `filterBreaking`. -/
def filterBreaking : Int := 1

/-- The constant `filterDeprecated`. -/
def filterDeprecated : Int := 2

/-- The constant `filterBehind`. -/
def filterBehind : Int := 3

/-- The struct `Model`, without the pointer to the client (the client is part
of the program state, see `Program`) and with the spinner reduced to a frame
counter. -/
structure Model where
  plugins : List Plugin
  reports : List PluginReport
  filtered : List Nat
  cursor : Int
  view : View
  filter : Int
  width : Int
  height : Int
  scrollTop : Int
  detailLines : Int
  loading : Bool
  loadingIdx : Int
  loadingName : String
  spinner : Nat
  done : Bool
  deriving DecidableEq, Repr

/-- The messages `Update` distinguishes; `other` stands for a message of any
other type.  The index of `pluginAnalyzed` is a natural number: the message is
only built by the closure of `analyzeNext`, with an index that passed the
bound check there. -/
inductive Msg where
  | WindowSizeMsg (Width Height : Int)
  | TickMsg
  | pluginAnalyzed (index : Nat) (report : PluginReport)
  | allDone
  | KeyMsg (key : String)
  | other
  deriving DecidableEq, Repr

/-- The commands the model hands to the runtime: `nil`, the two closures of
`analyzeNext` (the one that analyses captures the index and the plugin), the
tick of the spinner, `tea.Quit`, and the `tea.Batch` of two commands. -/
inductive Cmd where
  | none
  | analyze (i : Nat) (plugin : Plugin)
  | allDone
  | spinnerTick
  | quit
  | batch (first second : Cmd)
  deriving DecidableEq, Repr

/-- The zero value of `PluginReport`, which `make` fills the reports with. -/
def zeroReport : PluginReport :=
  { Plugin := { Name := "", Branch := "", Commit := "", Owner := "", Repo := "" },
    Severity := SeverityOK, BehindBy := 0, Releases := [], BreakingMsgs := [], DeprecMsgs := [],
    Error := "", CompareURL := "" }

/-- The function `NewModel`. -/
def NewModel (plugins : List Plugin) : Model :=
  { plugins := plugins, reports := List.replicate plugins.length zeroReport, filtered := [],
    cursor := 0, view := View.viewList, filter := filterAll, width := 0, height := 0,
    scrollTop := 0, detailLines := 0, loading := true, loadingIdx := 0, loadingName := "",
    spinner := 0, done := false }

/-- The method `Model.analyzeNext`. -/
def Model.analyzeNext (m : Model) (i : Nat) : Cmd :=
  match m.plugins[i]? with
  | none => Cmd.allDone
  | some plugin => Cmd.analyze i plugin

/-- The method `Model.Init`. -/
def Model.Init (m : Model) : Cmd :=
  Cmd.batch Cmd.spinnerTick (m.analyzeNext 0)

/-- Whether the loop of `applyFilter` keeps the report under the filter. -/
def keeps (filter : Int) (r : PluginReport) : Bool :=
  if filter = filterAll then true
  else if filter = filterBreaking then decide (r.Severity = SeverityBreaking)
  else if filter = filterDeprecated then decide (r.Severity.toInt ≥ SeverityDeprecation.toInt)
  else if filter = filterBehind then decide (r.BehindBy > 0)
  else false

/-- The method `Model.applyFilter`. -/
def Model.applyFilter (m : Model) : Model :=
  let filtered := (m.reports.enum.filter (fun ir => keeps m.filter ir.2)).map (fun ir => ir.1)
  let m := { m with filtered := filtered }
  if m.cursor ≥ (m.filtered.length : Int) then
    { m with cursor := max 0 ((m.filtered.length : Int) - 1) }
  else m

/-- The method `Model.handleKey`, on the text of the key. -/
def Model.handleKey (m : Model) (key : String) : Model × Cmd :=
  if key = "q" ∨ key = "ctrl+c" then
    if m.view = View.viewDetail then ({ m with view := View.viewList, scrollTop := 0 }, Cmd.none)
    else (m, Cmd.quit)
  else if key = "esc" then
    if m.view = View.viewDetail then ({ m with view := View.viewList, scrollTop := 0 }, Cmd.none)
    else (m, Cmd.none)
  else if key = "j" ∨ key = "down" then
    if m.view = View.viewList then
      if m.cursor < (m.filtered.length : Int) - 1 then ({ m with cursor := m.cursor + 1 }, Cmd.none)
      else (m, Cmd.none)
    else ({ m with scrollTop := m.scrollTop + 1 }, Cmd.none)
  else if key = "k" ∨ key = "up" then
    if m.view = View.viewList then
      if m.cursor > 0 then ({ m with cursor := m.cursor - 1 }, Cmd.none) else (m, Cmd.none)
    else
      if m.scrollTop > 0 then ({ m with scrollTop := m.scrollTop - 1 }, Cmd.none)
      else (m, Cmd.none)
  else if key = "g" then
    if m.view = View.viewList then ({ m with cursor := 0 }, Cmd.none)
    else ({ m with scrollTop := 0 }, Cmd.none)
  else if key = "G" then
    if m.view = View.viewList then
      if m.filtered.length > 0 then
        ({ m with cursor := (m.filtered.length : Int) - 1 }, Cmd.none)
      else (m, Cmd.none)
    else (m, Cmd.none)
  else if key = "enter" then
    if m.view = View.viewList ∧ m.filtered.length > 0 then
      ({ m with view := View.viewDetail, scrollTop := 0 }, Cmd.none)
    else (m, Cmd.none)
  else if key = "tab" then
    let m := { m with filter := (m.filter + 1) % 4 }
    let m := m.applyFilter
    ({ m with cursor := 0 }, Cmd.none)
  else if key = "shift+tab" then
    let m := { m with filter := (m.filter + 3) % 4 }
    let m := m.applyFilter
    ({ m with cursor := 0 }, Cmd.none)
  else (m, Cmd.none)

/-- The method `Model.Update`; `none` stands for the run-time panic of the
index expression `m.reports[msg.index]` out of range. -/
def Model.Update (m : Model) (msg : Msg) : Option (Model × Cmd) :=
  match msg with
  | Msg.WindowSizeMsg Width Height => some ({ m with width := Width, height := Height }, Cmd.none)
  | Msg.TickMsg =>
    if m.loading then some ({ m with spinner := m.spinner + 1 }, Cmd.spinnerTick)
    else some (m, Cmd.none)
  | Msg.pluginAnalyzed index report =>
    if index < m.reports.length then
      let m := { m with reports := m.reports.set index report }
      let m := { m with loadingIdx := (index : Int) + 1 }
      let m :=
        match m.plugins[index + 1]? with
        | some plugin => { m with loadingName := plugin.Name }
        | none => m
      let m := m.applyFilter
      some (m, m.analyzeNext (index + 1))
    else none
  | Msg.allDone =>
    let m := { m with loading := false }
    let m := { m with done := true }
    let m := { m with reports := SortReports m.reports }
    let m := m.applyFilter
    some (m, Cmd.none)
  | Msg.KeyMsg key => some (m.handleKey key)
  | Msg.other => some (m, Cmd.none)

/-- The running program: the model, the client the analyses share, the
analysis commands handed to the runtime that have not yet delivered their
message, the indices of the analyses handed to the runtime so far, in order,
and whether the program still runs (it stops on `tea.Quit` and on a panic). -/
structure Program where
  model : Model
  client : Client
  inflight : List Cmd
  started : List Nat
  running : Bool

/-- What the runtime does with a command returned by `Init` or `Update`: an
analysis command starts running at once in its own goroutine. -/
def Program.schedule (p : Program) : Cmd → Program
  | Cmd.none => p
  | Cmd.spinnerTick => p
  | Cmd.quit => { p with running := false }
  | Cmd.analyze i plugin =>
    { p with inflight := p.inflight ++ [Cmd.analyze i plugin], started := p.started ++ [i] }
  | Cmd.allDone => { p with inflight := p.inflight ++ [Cmd.allDone] }
  | Cmd.batch first second => (p.schedule first).schedule second

/-- The runtime passes a message to `Update` and schedules the command that
comes back. -/
def Program.feed (p : Program) (msg : Msg) : Program :=
  match p.model.Update msg with
  | none => { p with running := false }
  | some (m, cmd) => ({ p with model := m }).schedule cmd

/-- The command at position `k` of the commands in flight finishes: an
analysis command has run `detector.Analyze(client, plugin)`, and its message
is passed to `Update`. -/
def Program.deliver (p : Program) (k : Nat) : Program :=
  match p.inflight[k]? with
  | none => p
  | some cmd =>
    let p := { p with inflight := p.inflight.eraseIdx k }
    match cmd with
    | Cmd.analyze i plugin =>
      let (report, client) := Analyze p.client plugin
      ({ p with client := client }).feed (Msg.pluginAnalyzed i report)
    | Cmd.allDone => p.feed Msg.allDone
    | _ => p

/-- What can happen next in the program: a command in flight finishes, or a
message arrives from the terminal, the spinner or elsewhere. -/
inductive Event where
  | deliver (k : Nat)
  | window (Width Height : Int)
  | tick
  | key (key : String)
  | other
  deriving DecidableEq, Repr

/-- One step of the program. -/
def Program.step (p : Program) (e : Event) : Program :=
  if p.running then
    match e with
    | Event.deliver k => p.deliver k
    | Event.window Width Height => p.feed (Msg.WindowSizeMsg Width Height)
    | Event.tick => p.feed Msg.TickMsg
    | Event.key key => p.feed (Msg.KeyMsg key)
    | Event.other => p.feed Msg.other
  else p

/-- The program right after start: the model of `NewModel` and the command of
`Init` scheduled. -/
def Program.start (plugins : List Plugin) (client : Client) : Program :=
  let m := NewModel plugins
  ({ model := m, client := client, inflight := [], started := [], running := true }
    : Program).schedule m.Init

/-- The program after a sequence of events. -/
def Program.run (p : Program) (events : List Event) : Program :=
  events.foldl Program.step p

/-- Three plugin entries. -/
def samplePlugins : List Plugin :=
  [{ Name := "zeta", Branch := "main", Commit := "c1", Owner := "o", Repo := "zeta" },
   { Name := "alpha", Branch := "main", Commit := "c2", Owner := "o", Repo := "alpha" },
   { Name := "beta", Branch := "main", Commit := "c3", Owner := "o", Repo := "beta" }]

/-- A client that is rate limited on the comparison for the repository
`alpha`, finds a breaking commit in `beta` and a plain one in `zeta`. -/
def samplePipelineClient : Client :=
  { compareAnswer := fun _ repo _ _ =>
      if repo = "alpha" then
        Except.error "rate limited — set GITHUB_TOKEN env var for higher limits"
      else if repo = "beta" then Except.ok (sampleCompare 1 ["feat!: drop old API"])
      else Except.ok (sampleCompare 1 ["docs: typo"]),
    releasesAnswer := fun _ _ => Except.ok [],
    calls := [] }

end tui

namespace tui

/-- The report `detector.Analyze` returns for a plugin. -/
def reportOf (client : Client) (plugin : Plugin) : PluginReport :=
  (Analyze client plugin).1

/-- The state of the pipeline over `plugins` after `j` of its messages have
been handled by `Update` (the reports of the plugins 0 to `j-1`, then the
all-done message): the client answers as `client` does, the analyses 0 to
`min j (n-1)` have been handed to the runtime in this order, the command in
flight is the one `analyzeNext j` returns, the reports of the first `j` plugins
stand at their positions in input order before zero values, and once `j`
exceeds the number of plugins nothing is in flight, the model is done and the
reports are ranked. -/
def pipelineAt (plugins : List Plugin) (client : Client) (p : Program) (j : Nat) : Prop :=
  j ≤ plugins.length + 1 ∧
  p.model.plugins = plugins ∧
  p.client.compareAnswer = client.compareAnswer ∧
  p.client.releasesAnswer = client.releasesAnswer ∧
  p.started = List.range (min (j + 1) plugins.length) ∧
  p.inflight = (if j ≤ plugins.length then [(NewModel plugins).analyzeNext j] else []) ∧
  p.model.reports =
    (if j ≤ plugins.length then
      (plugins.take j).map (reportOf client) ++ List.replicate (plugins.length - j) zeroReport
     else SortReports (plugins.map (reportOf client))) ∧
  (p.model.done = true ↔ j = plugins.length + 1)

/-- The result of handling a message leaves the data of the pipeline alone: the
plugins, the reports and the done flag are those of `m`, and the command is
`nil`, the tick of the spinner or `tea.Quit`. -/
def Model.sameData (m : Model) (r : Model × Cmd) : Prop :=
  r.1.plugins = m.plugins ∧ r.1.reports = m.reports ∧ r.1.done = m.done ∧
    (r.2 = Cmd.none ∨ r.2 = Cmd.spinnerTick ∨ r.2 = Cmd.quit)

end tui

/-! # Theorems -/

/-! ## The loops of `Analyze` in closed form -/

theorem scanCommit_fields (r : PluginReport) (c : Commit) :
    scanCommit r c =
      { r with
        BreakingMsgs := r.BreakingMsgs ++
          (if breakingSignal c.Commit.Message then [firstLineOf c.Commit.Message] else []),
        DeprecMsgs := r.DeprecMsgs ++
          (if !breakingSignal c.Commit.Message && deprecRe.MatchString c.Commit.Message
           then [firstLineOf c.Commit.Message] else []) } := by
  unfold scanCommit breakingSignal
  by_cases hb : (breakingRe.MatchString c.Commit.Message
      || featBangRe.MatchString c.Commit.Message) = true
  · simp [hb]
  · by_cases hd : deprecRe.MatchString c.Commit.Message = true
    · simp [hb, hd]
    · simp [hb, hd]

theorem foldl_scanCommit (cs : List Commit) (r : PluginReport) :
    cs.foldl scanCommit r =
      { r with
        BreakingMsgs := r.BreakingMsgs ++ breakingLines cs,
        DeprecMsgs := r.DeprecMsgs ++ deprecLines cs } := by
  induction cs generalizing r with
  | nil => simp [breakingLines, deprecLines]
  | cons c cs ih =>
    rw [List.foldl_cons, ih, scanCommit_fields]
    unfold breakingLines deprecLines
    by_cases hb : breakingSignal c.Commit.Message = true
    · simp [hb, List.filter_cons]
    · by_cases hd : deprecRe.MatchString c.Commit.Message = true
      · simp [hb, hd, List.filter_cons]
      · simp [hb, hd, List.filter_cons]

theorem foldl_raiseTo (rels : List ReleaseInfo) (r : PluginReport) :
    rels.foldl raiseTo r = { r with Severity := raisedSeverity r.Severity rels } := by
  induction rels generalizing r with
  | nil => simp [raisedSeverity]
  | cons x xs ih =>
    rw [List.foldl_cons, ih]
    unfold raiseTo raisedSeverity
    by_cases h : x.Severity.gt r.Severity = true
    · simp [h]
    · simp [h]

/-- The report of `Analyze` when the comparison succeeded with a non-zero
count, field by field. -/
theorem Analyze_scanned (client : Client) (plugin : Plugin) (compare : CompareResult)
    (hc : client.compareAnswer plugin.Owner plugin.Repo plugin.Commit plugin.Branch
      = Except.ok compare)
    (h0 : compare.TotalCommits ≠ 0) :
    (Analyze client plugin).1 =
      { Plugin := plugin,
        Severity := finalSeverity compare.TotalCommits
          (releasesOf (client.releasesAnswer plugin.Owner plugin.Repo) plugin.Commit)
          (breakingLines compare.Commits) (deprecLines compare.Commits),
        BehindBy := compare.TotalCommits,
        Releases := releasesOf (client.releasesAnswer plugin.Owner plugin.Repo) plugin.Commit,
        BreakingMsgs := breakingLines compare.Commits,
        DeprecMsgs := deprecLines compare.Commits,
        Error := "",
        CompareURL := compare.HTMLURL } := by
  unfold Analyze
  simp only [Client.CompareCommits, hc, h0, if_false, Client.GetReleases, foldl_scanCommit,
    foldl_raiseTo]
  cases hr : client.releasesAnswer plugin.Owner plugin.Repo with
  | error e =>
    simp only [releasesOf, finalSeverity, List.nil_append]
    split <;> split <;> (try split) <;> simp_all
  | ok rs =>
    simp only [releasesOf, finalSeverity, List.nil_append]
    split <;> split <;> (try split) <;> simp_all


/-! ## C1: a message matching both signals -/

/-- C1 (as stated, refuted): the scanned commit message
"fix: removed deprecated functionality, will be removed soon" matches the
breaking signal and the deprecation signal, its first line is recorded in
`BreakingMsgs`, and `DeprecMsgs` stays empty: the line is not appended to
both lists. -/
theorem Analyze_both_signals_counterexample :
    breakingSignal "fix: removed deprecated functionality, will be removed soon" = true ∧
    deprecRe.MatchString "fix: removed deprecated functionality, will be removed soon" = true ∧
    (Analyze (sampleClient
        (Except.ok (sampleCompare 1
          ["fix: removed deprecated functionality, will be removed soon"]))
        (Except.ok [])) samplePlugin).1.BreakingMsgs
      = ["fix: removed deprecated functionality, will be removed soon"] ∧
    (Analyze (sampleClient
        (Except.ok (sampleCompare 1
          ["fix: removed deprecated functionality, will be removed soon"]))
        (Except.ok [])) samplePlugin).1.DeprecMsgs = [] := by
  decide

/-- C1 (amended): when the comparison succeeded with a non-zero count,
`BreakingMsgs` holds, in commit order, the first lines of the commits whose
message matches the breaking signal, and `DeprecMsgs` holds the first lines of
the commits whose message matches the deprecation signal and does not match
the breaking signal.  A commit matching both signals is recorded in
`BreakingMsgs` only. -/
theorem Analyze_breaking_excludes_deprecation (client : Client) (plugin : Plugin)
    (compare : CompareResult)
    (hc : client.compareAnswer plugin.Owner plugin.Repo plugin.Commit plugin.Branch
      = Except.ok compare)
    (h0 : compare.TotalCommits ≠ 0) :
    (Analyze client plugin).1.BreakingMsgs =
      (compare.Commits.filter (fun c =>
          breakingRe.MatchString c.Commit.Message || featBangRe.MatchString c.Commit.Message)).map
        (fun c => firstLineOf c.Commit.Message) ∧
    (Analyze client plugin).1.DeprecMsgs =
      (compare.Commits.filter (fun c =>
          !(breakingRe.MatchString c.Commit.Message || featBangRe.MatchString c.Commit.Message)
            && deprecRe.MatchString c.Commit.Message)).map
        (fun c => firstLineOf c.Commit.Message) := by
  rw [Analyze_scanned client plugin compare hc h0]
  exact ⟨rfl, rfl⟩

/-- C1 (amended), at a comparison of three commits, the second of which
matches both signals. -/
theorem Analyze_breaking_excludes_deprecation_witness :
    (Analyze (sampleClient
        (Except.ok (sampleCompare 3
          ["chore: deprecated old module",
           "fix: removed deprecated functionality, will be removed soon",
           "feat: add new feature"]))
        (Except.error "rate limited")) samplePlugin).1.BreakingMsgs =
      ((sampleCompare 3
          ["chore: deprecated old module",
           "fix: removed deprecated functionality, will be removed soon",
           "feat: add new feature"]).Commits.filter (fun c =>
          breakingRe.MatchString c.Commit.Message || featBangRe.MatchString c.Commit.Message)).map
        (fun c => firstLineOf c.Commit.Message) ∧
    (Analyze (sampleClient
        (Except.ok (sampleCompare 3
          ["chore: deprecated old module",
           "fix: removed deprecated functionality, will be removed soon",
           "feat: add new feature"]))
        (Except.error "rate limited")) samplePlugin).1.DeprecMsgs =
      ((sampleCompare 3
          ["chore: deprecated old module",
           "fix: removed deprecated functionality, will be removed soon",
           "feat: add new feature"]).Commits.filter (fun c =>
          !(breakingRe.MatchString c.Commit.Message || featBangRe.MatchString c.Commit.Message)
            && deprecRe.MatchString c.Commit.Message)).map
        (fun c => firstLineOf c.Commit.Message) :=
  Analyze_breaking_excludes_deprecation
    (sampleClient
      (Except.ok (sampleCompare 3
        ["chore: deprecated old module",
         "fix: removed deprecated functionality, will be removed soon",
         "feat: add new feature"]))
      (Except.error "rate limited"))
    samplePlugin
    (sampleCompare 3
      ["chore: deprecated old module",
       "fix: removed deprecated functionality, will be removed soon",
       "feat: add new feature"])
    rfl (by decide)

/-! ## C3, C4: the two early returns of `Analyze` -/

/-- C3: when the comparison succeeds with `TotalCommits = 0`, whatever the
commit list holds and whatever the release listing would answer, the report
has severity OK, `BehindBy` 0 and empty `Releases`, `BreakingMsgs` and
`DeprecMsgs` (and no error); the only request made is the comparison. -/
theorem Analyze_up_to_date (client : Client) (plugin : Plugin) (compare : CompareResult)
    (hc : client.compareAnswer plugin.Owner plugin.Repo plugin.Commit plugin.Branch
      = Except.ok compare)
    (h0 : compare.TotalCommits = 0) :
    (Analyze client plugin).1 =
      { Plugin := plugin, Severity := SeverityOK, BehindBy := 0, Releases := [],
        BreakingMsgs := [], DeprecMsgs := [], Error := "", CompareURL := compare.HTMLURL } ∧
    (Analyze client plugin).2.calls =
      client.calls ++ [Call.CompareCommits plugin.Owner plugin.Repo plugin.Commit plugin.Branch] := by
  unfold Analyze
  simp [Client.CompareCommits, hc, h0]

/-- C3, at a comparison that reports a zero count but lists a breaking commit,
with a release listing full of breaking text. -/
theorem Analyze_up_to_date_witness :
    (Analyze (sampleClient
        (Except.ok (sampleCompare 0 ["feat!: breaking change in API"]))
        (Except.ok [sampleRelease "v2.0.0" "BREAKING: Major rewrite" "removed" 2 false,
                    sampleRelease "v1.0.0" "First" "" 1 false])) samplePlugin).1 =
      { Plugin := samplePlugin, Severity := SeverityOK, BehindBy := 0, Releases := [],
        BreakingMsgs := [], DeprecMsgs := [], Error := "",
        CompareURL := (sampleCompare 0 ["feat!: breaking change in API"]).HTMLURL } ∧
    (Analyze (sampleClient
        (Except.ok (sampleCompare 0 ["feat!: breaking change in API"]))
        (Except.ok [sampleRelease "v2.0.0" "BREAKING: Major rewrite" "removed" 2 false,
                    sampleRelease "v1.0.0" "First" "" 1 false])) samplePlugin).2.calls =
      (sampleClient
        (Except.ok (sampleCompare 0 ["feat!: breaking change in API"]))
        (Except.ok [sampleRelease "v2.0.0" "BREAKING: Major rewrite" "removed" 2 false,
                    sampleRelease "v1.0.0" "First" "" 1 false])).calls
        ++ [Call.CompareCommits samplePlugin.Owner samplePlugin.Repo samplePlugin.Commit
              samplePlugin.Branch] :=
  Analyze_up_to_date
    (sampleClient
      (Except.ok (sampleCompare 0 ["feat!: breaking change in API"]))
      (Except.ok [sampleRelease "v2.0.0" "BREAKING: Major rewrite" "removed" 2 false,
                  sampleRelease "v1.0.0" "First" "" 1 false]))
    samplePlugin (sampleCompare 0 ["feat!: breaking change in API"]) rfl rfl

/-- C4: when the comparison fails with the error text `err`, the report has
the error `"compare failed: "` followed by `err` (so a non-empty one that
contains the client's text), severity OK, `BehindBy` 0 and empty `Releases`,
`BreakingMsgs` and `DeprecMsgs`; the only request made is the comparison, the
release listing is not asked. -/
theorem Analyze_compare_failed (client : Client) (plugin : Plugin) (err : String)
    (hc : client.compareAnswer plugin.Owner plugin.Repo plugin.Commit plugin.Branch
      = Except.error err) :
    (Analyze client plugin).1 =
      { Plugin := plugin, Severity := SeverityOK, BehindBy := 0, Releases := [],
        BreakingMsgs := [], DeprecMsgs := [], Error := "compare failed: " ++ err,
        CompareURL := "" } ∧
    (Analyze client plugin).1.Error ≠ "" ∧
    (Analyze client plugin).2.calls =
      client.calls ++ [Call.CompareCommits plugin.Owner plugin.Repo plugin.Commit plugin.Branch] := by
  have h1 : (Analyze client plugin).1 =
      { Plugin := plugin, Severity := SeverityOK, BehindBy := 0, Releases := [],
        BreakingMsgs := [], DeprecMsgs := [], Error := "compare failed: " ++ err,
        CompareURL := "" } := by
    unfold Analyze
    simp [Client.CompareCommits, hc]
  refine ⟨h1, ?_, ?_⟩
  · rw [h1]
    intro h
    have hlen := congrArg String.length h
    simp [String.length_append] at hlen
    exact absurd hlen.1 (by decide)
  · unfold Analyze
    simp [Client.CompareCommits, hc]

/-- C4, at a comparison answered by the rate-limit error of the client. -/
theorem Analyze_compare_failed_witness :
    (Analyze (sampleClient
        (Except.error "rate limited — set GITHUB_TOKEN env var for higher limits")
        (Except.ok [sampleRelease "v2.0.0" "BREAKING" "" 1 false])) samplePlugin).1 =
      { Plugin := samplePlugin, Severity := SeverityOK, BehindBy := 0, Releases := [],
        BreakingMsgs := [], DeprecMsgs := [],
        Error := "compare failed: "
          ++ "rate limited — set GITHUB_TOKEN env var for higher limits",
        CompareURL := "" } ∧
    (Analyze (sampleClient
        (Except.error "rate limited — set GITHUB_TOKEN env var for higher limits")
        (Except.ok [sampleRelease "v2.0.0" "BREAKING" "" 1 false])) samplePlugin).1.Error ≠ "" ∧
    (Analyze (sampleClient
        (Except.error "rate limited — set GITHUB_TOKEN env var for higher limits")
        (Except.ok [sampleRelease "v2.0.0" "BREAKING" "" 1 false])) samplePlugin).2.calls =
      (sampleClient
        (Except.error "rate limited — set GITHUB_TOKEN env var for higher limits")
        (Except.ok [sampleRelease "v2.0.0" "BREAKING" "" 1 false])).calls
        ++ [Call.CompareCommits samplePlugin.Owner samplePlugin.Repo samplePlugin.Commit
              samplePlugin.Branch] :=
  Analyze_compare_failed
    (sampleClient
      (Except.error "rate limited — set GITHUB_TOKEN env var for higher limits")
      (Except.ok [sampleRelease "v2.0.0" "BREAKING" "" 1 false]))
    samplePlugin "rate limited — set GITHUB_TOKEN env var for higher limits" rfl


/-! ## C5: the aggregated severity -/

theorem raisedSeverity_spec (rels : List ReleaseInfo) (s : Severity) :
    raisedSeverity s rels ∈ s :: rels.map (fun r => r.Severity) ∧
    s.toInt ≤ (raisedSeverity s rels).toInt ∧
    ∀ r ∈ rels, r.Severity.toInt ≤ (raisedSeverity s rels).toInt := by
  induction rels generalizing s with
  | nil => simp [raisedSeverity]
  | cons x xs ih =>
    have hstep : raisedSeverity s (x :: xs)
        = raisedSeverity (if x.Severity.gt s then x.Severity else s) xs := by
      simp [raisedSeverity]
    rw [hstep]
    obtain ⟨hmem, hge, hall⟩ := ih (if x.Severity.gt s then x.Severity else s)
    by_cases h : x.Severity.gt s = true
    · rw [if_pos h] at hmem hge hall ⊢
      have hlt : s.toInt < x.Severity.toInt := by
        simpa [Severity.gt] using h
      refine ⟨?_, by omega, ?_⟩
      · simp only [List.map_cons, List.mem_cons] at hmem ⊢
        rcases hmem with h1 | h1
        · exact Or.inr (Or.inl h1)
        · exact Or.inr (Or.inr h1)
      · intro r hr
        rcases List.mem_cons.mp hr with h1 | h1
        · subst h1; exact hge
        · exact hall r h1
    · rw [if_neg h] at hmem hge hall ⊢
      have hle : x.Severity.toInt ≤ s.toInt := by
        simpa [Severity.gt] using h
      refine ⟨?_, hge, ?_⟩
      · simp only [List.map_cons, List.mem_cons] at hmem ⊢
        rcases hmem with h1 | h1
        · exact Or.inl h1
        · exact Or.inr (Or.inr h1)
      · intro r hr
        rcases List.mem_cons.mp hr with h1 | h1
        · subst h1; omega
        · exact hall r h1

theorem Severity.toInt_le_three (s : Severity) : s.toInt ≤ 3 := by
  cases s <;> decide

theorem finalSeverity_spec (behind : Int) (rels : List ReleaseInfo) (brk dep : List String)
    (hpos : behind > 0) :
    (brk ≠ [] → finalSeverity behind rels brk dep = SeverityBreaking) ∧
    (brk = [] →
      finalSeverity behind rels brk dep ∈
          SeverityFeature :: (rels.map (fun r => r.Severity)
            ++ (if dep = [] then [] else [SeverityDeprecation])) ∧
      ∀ s ∈ SeverityFeature :: (rels.map (fun r => r.Severity)
            ++ (if dep = [] then [] else [SeverityDeprecation])),
        s.toInt ≤ (finalSeverity behind rels brk dep).toInt) ∧
    (∀ r ∈ rels, r.Severity.toInt ≤ (finalSeverity behind rels brk dep).toInt) := by
  obtain ⟨hmem, hge, hall⟩ := raisedSeverity_spec rels SeverityFeature
  have hfin : finalSeverity behind rels brk dep =
      if brk.length > 0 then SeverityBreaking
      else if decide (dep.length > 0) && (raisedSeverity SeverityFeature rels).lt SeverityDeprecation
        then SeverityDeprecation
      else raisedSeverity SeverityFeature rels := by
    simp [finalSeverity, hpos]
  refine ⟨?_, ?_, ?_⟩
  · intro hne
    have : brk.length > 0 := List.length_pos.mpr hne
    rw [hfin]; simp [this]
  · intro hnil
    subst hnil
    rw [hfin]
    simp only [List.length_nil, gt_iff_lt, lt_self_iff_false, if_false]
    by_cases hd : dep = []
    · subst hd
      simp only [List.length_nil, lt_self_iff_false, decide_False, Bool.false_and, if_true,
        List.append_nil]
      refine ⟨?_, ?_⟩
      · simpa using hmem
      · intro s hs
        rcases List.mem_cons.mp hs with h1 | h1
        · subst h1; exact hge
        · obtain ⟨r, hr, rfl⟩ := List.mem_map.mp h1
          exact hall r hr
    · have hlen : dep.length > 0 := List.length_pos.mpr hd
      simp only [hd, if_false, hlen, decide_True, Bool.true_and]
      by_cases hlt : (raisedSeverity SeverityFeature rels).lt SeverityDeprecation = true
      · simp only [hlt, if_true]
        have hlt2 : (raisedSeverity SeverityFeature rels).toInt < 2 := by
          simpa [Severity.lt, Severity.toInt] using hlt
        refine ⟨by simp, ?_⟩
        intro s hs
        rcases List.mem_cons.mp hs with h1 | h1
        · subst h1; decide
        · rcases List.mem_append.mp h1 with h2 | h2
          · obtain ⟨r, hr, rfl⟩ := List.mem_map.mp h2
            have := hall r hr
            have h2 : SeverityDeprecation.toInt = 2 := rfl
            omega
          · simp at h2; subst h2; decide
      · simp only [hlt]
        have hge2 : 2 ≤ (raisedSeverity SeverityFeature rels).toInt := by
          simpa [Severity.lt, Severity.toInt] using hlt
        refine ⟨?_, ?_⟩
        · rcases List.mem_cons.mp hmem with h1 | h1
          · exact List.mem_cons.mpr (Or.inl h1)
          · exact List.mem_cons.mpr (Or.inr (List.mem_append.mpr (Or.inl h1)))
        · intro s hs
          rcases List.mem_cons.mp hs with h1 | h1
          · subst h1; exact hge
          · rcases List.mem_append.mp h1 with h2 | h2
            · obtain ⟨r, hr, rfl⟩ := List.mem_map.mp h2
              exact hall r hr
            · simp at h2; subst h2; simpa [Severity.toInt] using hge2
  · intro r hr
    rw [hfin]
    have hr' := hall r hr
    by_cases hb : brk.length > 0
    · simp only [hb, if_true]
      exact Severity.toInt_le_three _
    · simp only [hb, if_false]
      by_cases hlt : (decide (dep.length > 0)
          && (raisedSeverity SeverityFeature rels).lt SeverityDeprecation) = true
      · simp only [hlt, if_true]
        have hlt2 : (raisedSeverity SeverityFeature rels).toInt < 2 := by
          have := (Bool.and_eq_true _ _).mp hlt
          simpa [Severity.lt, Severity.toInt] using this.2
        have h2 : SeverityDeprecation.toInt = 2 := rfl
        omega
      · simp only [hlt]
        exact hr'

/-- C5: when the comparison succeeded with `TotalCommits > 0`, whatever the
release listing answers, the severity of the report is Breaking if
`BreakingMsgs` is non-empty; otherwise it is the maximum, in the order
OK < Feature < Deprecation < Breaking, of Feature, of the severities of the
entries of `Releases`, and of Deprecation when `DeprecMsgs` is non-empty (it is
one of these candidates and none of them exceeds it).  When the release
listing fails `Releases` is empty.  In every case no entry of `Releases` has a
severity above the report's. -/
theorem Analyze_severity (client : Client) (plugin : Plugin) (compare : CompareResult)
    (hc : client.compareAnswer plugin.Owner plugin.Repo plugin.Commit plugin.Branch
      = Except.ok compare)
    (hpos : compare.TotalCommits > 0) :
    ((Analyze client plugin).1.BreakingMsgs ≠ [] →
      (Analyze client plugin).1.Severity = SeverityBreaking) ∧
    ((Analyze client plugin).1.BreakingMsgs = [] →
      (Analyze client plugin).1.Severity ∈
          SeverityFeature :: ((Analyze client plugin).1.Releases.map (fun r => r.Severity)
            ++ (if (Analyze client plugin).1.DeprecMsgs = [] then [] else [SeverityDeprecation])) ∧
      ∀ s ∈ SeverityFeature :: ((Analyze client plugin).1.Releases.map (fun r => r.Severity)
            ++ (if (Analyze client plugin).1.DeprecMsgs = [] then [] else [SeverityDeprecation])),
        s.toInt ≤ (Analyze client plugin).1.Severity.toInt) ∧
    (∀ e, client.releasesAnswer plugin.Owner plugin.Repo = Except.error e →
      (Analyze client plugin).1.Releases = []) ∧
    (∀ r ∈ (Analyze client plugin).1.Releases,
      r.Severity.toInt ≤ (Analyze client plugin).1.Severity.toInt) := by
  have h0 : compare.TotalCommits ≠ 0 := by omega
  obtain ⟨h1, h2, h3⟩ := finalSeverity_spec compare.TotalCommits
    (releasesOf (client.releasesAnswer plugin.Owner plugin.Repo) plugin.Commit)
    (breakingLines compare.Commits) (deprecLines compare.Commits) hpos
  rw [Analyze_scanned client plugin compare hc h0]
  refine ⟨h1, h2, ?_, h3⟩
  intro e he
  simp [releasesOf, he]


/-- C5, at a comparison of two commits, one of them a deprecation, with a
release listing of one plain release. -/
theorem Analyze_severity_witness :
    ((Analyze sampleClientDeprec samplePlugin).1.BreakingMsgs ≠ [] →
      (Analyze sampleClientDeprec samplePlugin).1.Severity = SeverityBreaking) ∧
    ((Analyze sampleClientDeprec samplePlugin).1.BreakingMsgs = [] →
      (Analyze sampleClientDeprec samplePlugin).1.Severity ∈
          SeverityFeature ::
            ((Analyze sampleClientDeprec samplePlugin).1.Releases.map (fun r => r.Severity)
            ++ (if (Analyze sampleClientDeprec samplePlugin).1.DeprecMsgs = [] then []
                else [SeverityDeprecation])) ∧
      ∀ s ∈ SeverityFeature ::
            ((Analyze sampleClientDeprec samplePlugin).1.Releases.map (fun r => r.Severity)
            ++ (if (Analyze sampleClientDeprec samplePlugin).1.DeprecMsgs = [] then []
                else [SeverityDeprecation])),
        s.toInt ≤ (Analyze sampleClientDeprec samplePlugin).1.Severity.toInt) ∧
    (∀ e, sampleClientDeprec.releasesAnswer samplePlugin.Owner samplePlugin.Repo
        = Except.error e →
      (Analyze sampleClientDeprec samplePlugin).1.Releases = []) ∧
    (∀ r ∈ (Analyze sampleClientDeprec samplePlugin).1.Releases,
      r.Severity.toInt ≤ (Analyze sampleClientDeprec samplePlugin).1.Severity.toInt) :=
  Analyze_severity sampleClientDeprec samplePlugin
    (sampleCompare 2 ["chore: deprecated old module", "feat: add new feature"])
    rfl (by decide)


/-! ## C6: the bang header -/

theorem searchFrom_of_here (m : Option Char → List Char → Bool) (prev : Option Char)
    (s : List Char) (h : m prev s = true) : searchFrom m prev s = true := by
  cases s with
  | nil => simpa [searchFrom] using h
  | cons c cs => simp [searchFrom, h]

/-- A position matcher that succeeds after the prefix `pre` makes the search
succeed. -/
theorem searchFrom_append (m : Option Char → List Char → Bool) (pre s : List Char)
    (prev : Option Char)
    (h : m (match pre.getLast? with | some c => some c | none => prev) s = true) :
    searchFrom m prev (pre ++ s) = true := by
  induction pre generalizing prev with
  | nil => exact searchFrom_of_here m prev s (by simpa using h)
  | cons c cs ih =>
    have hrec : searchFrom m (some c) (cs ++ s) = true := by
      apply ih
      cases hcs : cs.getLast? with
      | none =>
        have : cs = [] := List.getLast?_eq_none_iff.mp hcs
        subst this
        simpa using h
      | some d =>
        have : (c :: cs).getLast? = some d := by
          cases cs with
          | nil => simp at hcs
          | cons e es => simpa [List.getLast?_cons_cons] using hcs
        simpa [this] using h
    simp [searchFrom, hrec]

theorem matchLit_exact (pat rest : List Char) (prev : Option Char) :
    (matchLit false pat prev (pat ++ rest)).isSome = true := by
  induction pat generalizing prev with
  | nil => simp [matchLit]
  | cons p ps ih => simp [matchLit, litAccepts, ih]

/-- A message with a line that begins with `<type>!:` matches `featBangRe`. -/
theorem featBangRe_of_header (msg : String) (pre post : List Char) (t : String)
    (ht : t ∈ ["feat", "fix", "refactor", "chore"])
    (hmsg : msg.data = pre ++ (t.data ++ ['!', ':'] ++ post))
    (hline : pre = [] ∨ pre.getLast? = some '\n') :
    featBangRe.MatchString msg = true := by
  unfold featBangRe.MatchString
  rw [hmsg]
  apply searchFrom_append
  unfold featBangRe.headerAt
  have hprev : ((match pre.getLast? with | some c => some c | none => (none : Option Char)).isNone
      || (match pre.getLast? with | some c => some c | none => (none : Option Char)) == some '\n')
      = true := by
    rcases hline with h | h
    · subst h; rfl
    · rw [h]; rfl
  rw [hprev, Bool.true_and, List.any_eq_true]
  exact ⟨t, ht, matchLit_exact _ _ _⟩

theorem sinkLeft_perm {α : Type} (less : α → α → Bool) (x : α) (l : List α) :
    (sinkLeft less x l).Perm (x :: l) := by
  induction l with
  | nil => exact List.Perm.refl _
  | cons y rest ih =>
    unfold sinkLeft
    by_cases h : less x y = true
    · rw [if_pos h]
      exact (List.Perm.cons y ih).trans (List.Perm.swap x y rest)
    · rw [if_neg h]

theorem foldl_sinkLeft_perm {α : Type} (less : α → α → Bool) (l acc : List α) :
    (l.foldl (fun sorted x => sinkLeft less x sorted) acc).Perm (l ++ acc) := by
  induction l generalizing acc with
  | nil => exact List.Perm.refl _
  | cons x xs ih =>
    rw [List.foldl_cons]
    refine (ih (sinkLeft less x acc)).trans ?_
    refine (List.Perm.append_left xs (sinkLeft_perm less x acc)).trans ?_
    simp

/-- The result of `sortSlice` is a permutation of its argument. -/
theorem sortSlice_perm {α : Type} (less : α → α → Bool) (l : List α) :
    (sortSlice less l).Perm l := by
  unfold sortSlice
  refine (List.reverse_perm _).trans ?_
  simpa using foldl_sinkLeft_perm less l []

theorem sinkLeft_pairwise {α : Type} (less : α → α → Bool) (hw : StrictWeak less) (x : α)
    (l : List α) (h : l.Pairwise (fun a b => less a b = false)) :
    (sinkLeft less x l).Pairwise (fun a b => less a b = false) := by
  induction l with
  | nil => simp [sinkLeft]
  | cons y rest ih =>
    obtain ⟨hy, hrest⟩ := List.pairwise_cons.mp h
    unfold sinkLeft
    by_cases hxy : less x y = true
    · rw [if_pos hxy]
      refine List.pairwise_cons.mpr ⟨?_, ih hrest⟩
      intro z hz
      rcases List.mem_cons.mp ((sinkLeft_perm less x rest).mem_iff.mp hz) with h1 | h1
      · subst h1; exact hw.asymm _ _ hxy
      · exact hy z h1
    · rw [if_neg hxy]
      have hxy' : less x y = false := by simpa using hxy
      refine List.pairwise_cons.mpr ⟨?_, h⟩
      intro z hz
      rcases List.mem_cons.mp hz with h1 | h1
      · subst h1; exact hxy'
      · exact hw.negTrans x y z hxy' (hy z h1)

theorem foldl_sinkLeft_pairwise {α : Type} (less : α → α → Bool) (hw : StrictWeak less)
    (l acc : List α) (h : acc.Pairwise (fun a b => less a b = false)) :
    (l.foldl (fun sorted x => sinkLeft less x sorted) acc).Pairwise
      (fun a b => less a b = false) := by
  induction l generalizing acc with
  | nil => exact h
  | cons x xs ih => exact ih _ (sinkLeft_pairwise less hw x acc h)

/-- Under a strict weak ordering the result of `sortSlice` has no inversion:
no element is less than an element before it. -/
theorem sortSlice_pairwise {α : Type} (less : α → α → Bool) (hw : StrictWeak less)
    (l : List α) : (sortSlice less l).Pairwise (fun a b => less b a = false) := by
  unfold sortSlice
  rw [List.pairwise_reverse]
  exact foldl_sinkLeft_pairwise less hw l [] List.Pairwise.nil

/-! ## C8: `SortReports` -/

theorem bytesLess_asymm (a b : List Nat) (h : bytesLess a b = true) : bytesLess b a = false := by
  induction a generalizing b with
  | nil => cases b <;> simp [bytesLess] at h ⊢
  | cons x xs ih =>
    cases b with
    | nil => simp [bytesLess] at h
    | cons y ys =>
      unfold bytesLess at h ⊢
      by_cases h1 : x < y
      · have h2 : ¬ y < x := by omega
        simp [h1, h2]
      · by_cases h2 : y < x
        · simp [h1, h2] at h
        · simp only [h1, h2, if_false] at h ⊢
          exact ih ys h

theorem bytesLess_negTrans (a b c : List Nat) (h1 : bytesLess a b = false)
    (h2 : bytesLess b c = false) : bytesLess a c = false := by
  induction a generalizing b c with
  | nil =>
    cases b with
    | nil => exact h2
    | cons y ys => simp [bytesLess] at h1
  | cons x xs ih =>
    cases c with
    | nil => simp [bytesLess]
    | cons z zs =>
      cases b with
      | nil => simp [bytesLess] at h2
      | cons y ys =>
        unfold bytesLess at h1 h2 ⊢
        by_cases hxy : x < y
        · simp [hxy] at h1
        · by_cases hyz : y < z
          · simp [hyz] at h2
          · by_cases hyx : y < x
            · have hxz : ¬ x < z := by omega
              have hzx : z < x := by omega
              simp [hxz, hzx]
            · by_cases hzy : z < y
              · have hxz : ¬ x < z := by omega
                have hzx : z < x := by omega
                simp [hxz, hzx]
              · have hxz : ¬ x < z := by omega
                have hzx : ¬ z < x := by omega
                simp only [hxy, hyx, hyz, hzy, hxz, hzx, if_false] at h1 h2 ⊢
                exact ih ys zs h1 h2

theorem Severity.toInt_injective (a b : Severity) (h : a.toInt = b.toInt) : a = b := by
  cases a <;> cases b <;> first | rfl | (exfalso; revert h; decide)

/-- What `reportLess a b = false` says. -/
theorem reportLess_eq_false (a b : PluginReport) :
    reportLess a b = false ↔
      a.Severity.toInt ≤ b.Severity.toInt ∧
        (a.Severity = b.Severity → stringLess a.Plugin.Name b.Plugin.Name = false) := by
  unfold reportLess
  by_cases h : a.Severity = b.Severity
  · simp [h]
  · have hne : a.Severity.toInt ≠ b.Severity.toInt := fun e => h (Severity.toInt_injective _ _ e)
    simp only [ne_eq, h, not_false_eq_true, if_true, Severity.gt, decide_eq_false_iff_not,
      not_lt, false_implies, and_true, gt_iff_lt]

theorem reportLess_strictWeak : StrictWeak reportLess := by
  constructor
  · intro a b h
    rw [reportLess_eq_false]
    unfold reportLess at h
    by_cases hs : a.Severity = b.Severity
    · simp only [hs, ne_eq, not_true_eq_false, if_false] at h
      refine ⟨by rw [hs], fun _ => bytesLess_asymm _ _ h⟩
    · simp only [ne_eq, hs, not_false_eq_true, if_true, Severity.gt, decide_eq_true_eq] at h
      exact ⟨by omega, fun e => absurd e.symm hs⟩
  · intro a b c h1 h2
    rw [reportLess_eq_false] at h1 h2 ⊢
    obtain ⟨h1a, h1b⟩ := h1
    obtain ⟨h2a, h2b⟩ := h2
    refine ⟨by omega, ?_⟩
    intro hac
    have hab : a.Severity = b.Severity := by
      apply Severity.toInt_injective
      have hac' := congrArg Severity.toInt hac
      omega
    have hbc : b.Severity = c.Severity := by rw [← hab, hac]
    exact bytesLess_negTrans _ _ _ (h1b hab) (h2b hbc)

/-- C8: for every list of reports, the list after `SortReports` is a
permutation of the input (the reports themselves are unchanged) in which every
report has, with respect to every later one and so in particular to the next
one, the greater or equal severity and, when the severities are equal, a
plugin name that is byte-wise less than or equal.  The same ranking holds for
every permutation of the input without inversions under the comparison of
`SortReports`, which is what `sort.Slice` returns for a slice of any length.
The reports with severities
OK, Breaking, Deprecation, Breaking and names zeta, alpha, beta, Alpha are
ranked Alpha, alpha, beta, zeta. -/
theorem SortReports_ranked (reports : List PluginReport) :
    (SortReports reports).Perm reports ∧
    (SortReports reports).Pairwise rankedBefore ∧
    (SortReports reports).Chain' rankedBefore ∧
    (∀ out : List PluginReport, out.Perm reports →
      out.Pairwise (fun a b => reportLess b a = false) → out.Chain' rankedBefore) ∧
    (SortReports [sampleReport "zeta" SeverityOK, sampleReport "alpha" SeverityBreaking,
        sampleReport "beta" SeverityDeprecation, sampleReport "Alpha" SeverityBreaking])
      = [sampleReport "Alpha" SeverityBreaking, sampleReport "alpha" SeverityBreaking,
         sampleReport "beta" SeverityDeprecation, sampleReport "zeta" SeverityOK] := by
  have himp : ∀ out : List PluginReport,
      out.Pairwise (fun a b => reportLess b a = false) → out.Pairwise rankedBefore := by
    intro out h
    refine List.Pairwise.imp ?_ h
    intro a b hba
    obtain ⟨h1, h2⟩ := (reportLess_eq_false b a).mp hba
    exact ⟨h1, fun e => h2 e.symm⟩
  have hp : (SortReports reports).Pairwise rankedBefore :=
    himp _ (sortSlice_pairwise reportLess reportLess_strictWeak reports)
  exact ⟨sortSlice_perm reportLess reports, hp, List.Pairwise.chain' hp,
    fun out _ h => List.Pairwise.chain' (himp out h), by decide⟩


/-! ## The loop of `analyzeReleases` in closed form -/

theorem analyzeStep_draft (st : ScanState) (r : Release) (hd : r.Draft = true) :
    analyzeStep st r = { st with i := st.i + 1 } := by
  simp [analyzeStep, hd]

theorem analyzeStep_nondraft (st : ScanState) (r : Release) (hd : r.Draft = false) :
    analyzeStep st r =
      { i := st.i + 1, prevMajor := (majorOf r).getD st.prevMajor,
        infos := st.infos ++ [entryOf st r] } := by
  have hF : SeverityFeature.lt SeverityDeprecation = true := by decide
  have hB : SeverityBreaking.lt SeverityDeprecation = false := by decide
  unfold analyzeStep entryOf majorJump majorOf textSeverity
  simp only [hd, Bool.false_eq_true, if_false]
  generalize breakingRe.MatchString (r.Name ++ " " ++ r.Body) = b
  generalize deprecRe.MatchString (r.Name ++ " " ++ r.Body) = d
  cases semverRe.FindStringSubmatch r.TagName with
  | none =>
    simp only [Option.map_none', Option.getD_none]
    cases b <;> cases d <;> simp [hF]
  | some groups =>
    simp only [Option.map_some', Option.getD_some]
    rcases Bool.eq_false_or_eq_true (decide (st.i > 0) && decide (st.prevMajor ≥ 0)
      && decide (Atoi (groups.getD 1 "") > st.prevMajor)) with hj | hj <;>
    simp only [hj] <;> cases b <;> cases d <;> simp [hF, hB]

theorem Atoi_nonneg (s : String) : 0 ≤ Atoi s := by
  unfold Atoi
  simp only
  split
  · decide
  · exact Int.ofNat_nonneg _

theorem sameScan_draft (st st' : ScanState) (r : Release) (h : sameScan st st')
    (hd : r.Draft = true) : sameScan (analyzeStep st r) st' := by
  obtain ⟨h1, h2, h3⟩ := h
  rw [analyzeStep_draft st r hd]
  refine ⟨h1, h2, fun hp => ?_⟩
  have := h3 hp
  exact ⟨Nat.succ_pos _, this.2⟩

theorem majorJump_congr (st st' : ScanState) (r : Release) (h : sameScan st st') :
    majorJump st r = majorJump st' r := by
  obtain ⟨h1, _, h3⟩ := h
  unfold majorJump
  cases majorOf r with
  | none => rfl
  | some major =>
    simp only
    rw [← h1]
    by_cases hp : 0 ≤ st.prevMajor
    · obtain ⟨ha, hb⟩ := h3 hp
      simp [ha, hb]
    · simp [hp]

theorem sameScan_nondraft (st st' : ScanState) (r : Release) (h : sameScan st st')
    (hd : r.Draft = false) : sameScan (analyzeStep st r) (analyzeStep st' r) := by
  have hj := majorJump_congr st st' r h
  obtain ⟨h1, h2, _⟩ := h
  rw [analyzeStep_nondraft st r hd, analyzeStep_nondraft st' r hd]
  refine ⟨by simp only [h1], ?_, fun _ => ⟨Nat.succ_pos _, Nat.succ_pos _⟩⟩
  simp only [entryOf, hj, h2]

/-- Draft releases do not influence the loop of `analyzeReleases`. -/
theorem foldl_analyzeStep_filter (l : List Release) (st st' : ScanState)
    (h : sameScan st st') :
    sameScan (l.foldl analyzeStep st)
      ((l.filter (fun r => !r.Draft)).foldl analyzeStep st') := by
  induction l generalizing st st' with
  | nil => exact h
  | cons r rs ih =>
    cases hd : r.Draft with
    | true =>
      have hf : (r :: rs).filter (fun r => !r.Draft) = rs.filter (fun r => !r.Draft) := by
        simp [List.filter_cons, hd]
      rw [hf, List.foldl_cons]
      exact ih _ _ (sameScan_draft st st' r h hd)
    | false =>
      have hf : (r :: rs).filter (fun r => !r.Draft)
          = r :: rs.filter (fun r => !r.Draft) := by
        simp [List.filter_cons, hd]
      rw [hf, List.foldl_cons, List.foldl_cons]
      exact ih _ _ (sameScan_nondraft st st' r h hd)

/-- The entries the loop of `analyzeReleases` appends are those of the
non-draft releases, in order. -/
theorem foldl_analyzeStep_keys (l : List Release) (st : ScanState) :
    (l.foldl analyzeStep st).infos.map entryKey =
      st.infos.map entryKey ++ (l.filter (fun r => !r.Draft)).map releaseKey := by
  induction l generalizing st with
  | nil => simp
  | cons r rs ih =>
    rw [List.foldl_cons, ih]
    cases hd : r.Draft with
    | true => simp [analyzeStep_draft st r hd, List.filter_cons, hd]
    | false =>
      simp [analyzeStep_nondraft st r hd, List.filter_cons, hd, entryOf, entryKey, releaseKey]

/-! ## `sort.Slice` and `filter` -/

theorem filter_sinkLeft_of_false {α : Type} (less : α → α → Bool) (p : α → Bool) (x : α)
    (l : List α) (hp : p x = false) : (sinkLeft less x l).filter p = l.filter p := by
  induction l with
  | nil => simp [sinkLeft, hp]
  | cons y rest ih =>
    unfold sinkLeft
    by_cases h : less x y = true
    · rw [if_pos h, List.filter_cons, List.filter_cons, ih]
    · rw [if_neg h, List.filter_cons, hp]; simp

theorem filter_sinkLeft_of_true {α : Type} (less : α → α → Bool) (hw : StrictWeak less)
    (p : α → Bool) (x : α) (l : List α) (hp : p x = true)
    (hs : l.Pairwise (fun a b => less a b = false)) :
    (sinkLeft less x l).filter p = sinkLeft less x (l.filter p) := by
  induction l with
  | nil => simp [sinkLeft, hp]
  | cons y rest ih =>
    obtain ⟨hy, hrest⟩ := List.pairwise_cons.mp hs
    by_cases h : less x y = true
    · have h1 : sinkLeft less x (y :: rest) = y :: sinkLeft less x rest := by
        simp [sinkLeft, h]
      rw [h1, List.filter_cons, List.filter_cons, ih hrest]
      by_cases hpy : p y = true
      · simp [hpy, sinkLeft, h]
      · simp [hpy]
    · have hxy : less x y = false := by simpa using h
      have h1 : sinkLeft less x (y :: rest) = x :: y :: rest := by
        simp [sinkLeft, h]
      rw [h1, List.filter_cons, if_pos hp]
      cases hf : (y :: rest).filter p with
      | nil => simp [sinkLeft]
      | cons z zs =>
        have hz : z ∈ y :: rest := by
          have : z ∈ (y :: rest).filter p := by rw [hf]; exact List.mem_cons_self _ _
          exact (List.mem_filter.mp this).1
        have hxz : less x z = false := by
          rcases List.mem_cons.mp hz with e | e
          · subst e; exact hxy
          · exact hw.negTrans x y z hxy (hy z e)
        simp [sinkLeft, hxz]

theorem filter_foldl_sinkLeft {α : Type} (less : α → α → Bool) (hw : StrictWeak less)
    (p : α → Bool) (l acc : List α) (hs : acc.Pairwise (fun a b => less a b = false)) :
    (l.foldl (fun sorted x => sinkLeft less x sorted) acc).filter p =
      (l.filter p).foldl (fun sorted x => sinkLeft less x sorted) (acc.filter p) := by
  induction l generalizing acc with
  | nil => rfl
  | cons x xs ih =>
    rw [List.foldl_cons, ih _ (sinkLeft_pairwise less hw x acc hs)]
    by_cases hp : p x = true
    · rw [filter_sinkLeft_of_true less hw p x acc hp hs, List.filter_cons, if_pos hp,
        List.foldl_cons]
    · have hp' : p x = false := by simpa using hp
      rw [filter_sinkLeft_of_false less p x acc hp', List.filter_cons, if_neg hp]

/-- Under a strict weak ordering, removing elements before `sortSlice` or after
it gives the same list. -/
theorem sortSlice_filter {α : Type} (less : α → α → Bool) (hw : StrictWeak less)
    (p : α → Bool) (l : List α) :
    sortSlice less (l.filter p) = (sortSlice less l).filter p := by
  unfold sortSlice
  rw [List.filter_reverse, filter_foldl_sinkLeft less hw p l [] List.Pairwise.nil]
  rfl

theorem publishedAfter_strictWeak : StrictWeak publishedAfter := by
  constructor
  · intro a b h
    simp only [publishedAfter, decide_eq_true_eq, decide_eq_false_iff_not] at h ⊢
    omega
  · intro a b c h1 h2
    simp only [publishedAfter, decide_eq_false_iff_not] at h1 h2 ⊢
    omega

/-- Two permutations of one another without inversions are equal when the
comparison decides every pair of distinct elements. -/
theorem sorted_perm_unique {α : Type} (less : α → α → Bool) (l₁ l₂ : List α)
    (hp : l₁.Perm l₂)
    (h1 : l₁.Pairwise (fun a b => less b a = false))
    (h2 : l₂.Pairwise (fun a b => less b a = false))
    (htot : ∀ a ∈ l₁, ∀ b ∈ l₁, a ≠ b → less a b = true ∨ less b a = true) :
    l₁ = l₂ := by
  induction l₁ generalizing l₂ with
  | nil => exact (List.Perm.nil_eq hp)
  | cons a t ih =>
    cases l₂ with
    | nil => exact absurd hp.length_eq (by simp)
    | cons b t' =>
      obtain ⟨ha, ht⟩ := List.pairwise_cons.mp h1
      obtain ⟨hb, ht'⟩ := List.pairwise_cons.mp h2
      have hab : a = b := by
        by_contra hne
        have ha2 : a ∈ t' := by
          have : a ∈ b :: t' := hp.mem_iff.mp (List.mem_cons_self _ _)
          rcases List.mem_cons.mp this with e | e
          · exact absurd e hne
          · exact e
        have hb1 : b ∈ t := by
          have : b ∈ a :: t := hp.mem_iff.mpr (List.mem_cons_self _ _)
          rcases List.mem_cons.mp this with e | e
          · exact absurd e.symm hne
          · exact e
        have hf1 : less a b = false := hb a ha2
        have hf2 : less b a = false := ha b hb1
        rcases htot a (List.mem_cons_self _ _) b (List.mem_cons_of_mem _ hb1) hne with e | e
        · rw [hf1] at e; exact Bool.noConfusion e
        · rw [hf2] at e; exact Bool.noConfusion e
      subst hab
      have hpt : t.Perm t' := List.Perm.cons_inv hp
      rw [ih t' hpt ht ht'
        (fun x hx y hy hxy => htot x (List.mem_cons_of_mem _ hx) y (List.mem_cons_of_mem _ hy) hxy)]

/-- When the comparison is a strict weak ordering that decides every pair of
distinct elements of `l`, every permutation of `l` without inversions is the
result of `sortSlice`: the sorted order does not depend on the algorithm. -/
theorem sortSlice_unique {α : Type} (less : α → α → Bool) (hw : StrictWeak less)
    (l sorted : List α) (hp : sorted.Perm l)
    (hs : sorted.Pairwise (fun a b => less b a = false))
    (htot : ∀ a ∈ l, ∀ b ∈ l, a ≠ b → less a b = true ∨ less b a = true) :
    sorted = sortSlice less l :=
  sorted_perm_unique less sorted (sortSlice less l)
    (hp.trans (sortSlice_perm less l).symm) hs (sortSlice_pairwise less hw l)
    (fun a ha b hb hab => htot a (hp.mem_iff.mp ha) b (hp.mem_iff.mp hb) hab)

theorem publishedAfter_total (releases : List Release)
    (hdistinct : (releases.map (fun r => r.PublishedAt)).Nodup) :
    ∀ a ∈ releases, ∀ b ∈ releases, a ≠ b →
      publishedAfter a b = true ∨ publishedAfter b a = true := by
  intro a ha b hb hab
  have hne : a.PublishedAt ≠ b.PublishedAt := by
    intro e
    exact hab (List.inj_on_of_nodup_map hdistinct ha hb e)
  simp only [publishedAfter, decide_eq_true_eq]
  omega

/-! ## C7: draft releases -/

/-- Whatever order the releases are run through in, the entries of the loop
are, up to order, the non-draft releases. -/
theorem analyzeSorted_keys (sorted releases : List Release) (hp : sorted.Perm releases) :
    ((analyzeSorted sorted).map entryKey).Perm
      ((releases.filter (fun r => !r.Draft)).map releaseKey) := by
  unfold analyzeSorted
  rw [foldl_analyzeStep_keys]
  simp only [List.map_nil, List.nil_append]
  exact (hp.filter _).map _

/-- C7: for every release list, whatever its publish times, and in whatever
order `sort.Slice` leaves it, the entries of `analyzeReleases` are, up to
order, the non-draft releases of the list, one entry each (compared on the
copied fields tag, name, body and URL), so a draft has no entry whatever its
text.  When the publish times are pairwise distinct, the result is the result
of `analyzeReleases` on the list with the drafts removed beforehand; the list
the loop runs over is then the only permutation of the input that is ordered
by publish time, newest first, so this equality holds for every outcome
`sort.Slice` may have on the two lists.  For a list of at most 12 releases,
which `sort.Slice` sorts by insertion, the equality holds also when publish
times coincide. -/
theorem analyzeReleases_drafts (releases : List Release) (commit : String) :
    (∀ sorted : List Release, sorted.Perm releases →
      ((analyzeSorted sorted).map entryKey).Perm
        ((releases.filter (fun r => !r.Draft)).map releaseKey) ∧
      (analyzeSorted sorted).length = (releases.filter (fun r => !r.Draft)).length) ∧
    ((analyzeReleases releases commit).map entryKey).Perm
      ((releases.filter (fun r => !r.Draft)).map releaseKey) ∧
    (analyzeReleases releases commit).length
      = (releases.filter (fun r => !r.Draft)).length ∧
    (releases.length ≤ 12 →
      analyzeReleases releases commit
        = analyzeReleases (releases.filter (fun r => !r.Draft)) commit) ∧
    ((releases.map (fun r => r.PublishedAt)).Nodup →
      analyzeReleases releases commit
        = analyzeReleases (releases.filter (fun r => !r.Draft)) commit ∧
      (∀ sorted : List Release, sorted.Perm releases →
        sorted.Pairwise (fun a b => publishedAfter b a = false) →
        sorted = sortSlice publishedAfter releases) ∧
      (∀ sorted sorted' : List Release,
        SortSliceResult publishedAfter releases sorted →
        SortSliceResult publishedAfter (releases.filter (fun r => !r.Draft)) sorted' →
        analyzeSorted sorted = analyzeSorted sorted')) := by
  have hany : ∀ sorted : List Release, sorted.Perm releases →
      ((analyzeSorted sorted).map entryKey).Perm
        ((releases.filter (fun r => !r.Draft)).map releaseKey) ∧
      (analyzeSorted sorted).length = (releases.filter (fun r => !r.Draft)).length := by
    intro sorted hp
    have hk := analyzeSorted_keys sorted releases hp
    refine ⟨hk, ?_⟩
    have := hk.length_eq
    simpa using this
  have hrun : analyzeReleases releases commit
      = analyzeSorted (sortSlice publishedAfter releases) := rfl
  have hfilter : analyzeSorted (sortSlice publishedAfter releases)
      = analyzeSorted (sortSlice publishedAfter (releases.filter (fun r => !r.Draft))) := by
    unfold analyzeSorted
    rw [sortSlice_filter publishedAfter publishedAfter_strictWeak]
    have hinit : sameScan { i := 0, prevMajor := -1, infos := [] }
        { i := 0, prevMajor := -1, infos := [] } :=
      ⟨rfl, rfl, fun h => absurd h (by decide)⟩
    exact (foldl_analyzeStep_filter (sortSlice publishedAfter releases) _ _ hinit).2.1
  refine ⟨hany, ?_, ?_, fun _ => hfilter, ?_⟩
  · rw [hrun]
    exact (hany _ (sortSlice_perm publishedAfter releases)).1
  · rw [hrun]
    exact (hany _ (sortSlice_perm publishedAfter releases)).2
  · intro hdistinct
    have hdistinct' : ((releases.filter (fun r => !r.Draft)).map
        (fun r => r.PublishedAt)).Nodup :=
      List.Nodup.sublist ((List.filter_sublist releases).map _) hdistinct
    refine ⟨hfilter, ?_, ?_⟩
    · intro sorted hp hs
      exact sortSlice_unique publishedAfter publishedAfter_strictWeak releases sorted hp hs
        (publishedAfter_total releases hdistinct)
    · intro sorted sorted' h h'
      rw [sortSlice_unique publishedAfter publishedAfter_strictWeak releases sorted h.1 h.2.1
          (publishedAfter_total releases hdistinct),
        sortSlice_unique publishedAfter publishedAfter_strictWeak _ sorted' h'.1 h'.2.1
          (publishedAfter_total _ hdistinct')]
      exact hfilter

/-- C7, at a list with two drafts that both carry the zero time and have
breaking text, and, for the equality, at three releases with distinct publish
times listed out of order, the newest of them a draft with breaking text. -/
theorem analyzeReleases_drafts_witness :
    (((analyzeReleases sampleReleasesTwoDrafts "abc123").map entryKey).Perm
        ((sampleReleasesTwoDrafts.filter (fun r => !r.Draft)).map releaseKey) ∧
      (analyzeReleases sampleReleasesTwoDrafts "abc123").length = 2 ∧
      analyzeReleases sampleReleasesTwoDrafts "abc123"
        = analyzeReleases (sampleReleasesTwoDrafts.filter (fun r => !r.Draft)) "abc123") ∧
    (sampleReleasesDraft.map (fun r => r.PublishedAt)).Nodup ∧
    analyzeReleases sampleReleasesDraft "abc123"
      = analyzeReleases (sampleReleasesDraft.filter (fun r => !r.Draft)) "abc123" :=
  ⟨⟨(analyzeReleases_drafts sampleReleasesTwoDrafts "abc123").2.1,
      (analyzeReleases_drafts sampleReleasesTwoDrafts "abc123").2.2.1,
      (analyzeReleases_drafts sampleReleasesTwoDrafts "abc123").2.2.2.1 (by decide)⟩,
    by decide,
    ((analyzeReleases_drafts sampleReleasesDraft "abc123").2.2.2.2 (by decide)).1⟩

/-! ## C2: the major-version rule -/

/-- C2 (the code at the failing input): for the releases v2.0.0, v1.5.0 and
v1.4.0 with distinct publish times, newest first, whose texts hold no cue, the
tags parse to the majors 2, 1 and 1, and `analyzeReleases` gives every entry,
v2.0.0 included, the severity Feature: the jump from major 1 to major 2 is not
reported.  In the state the loop starts in, the major-version rule fires for
no release at all, so it never applies to the newest release. -/
theorem analyzeReleases_newest_major_not_breaking :
    sampleReleasesJump.map majorOf = [some 2, some 1, some 1] ∧
    (sampleReleasesJump.map (fun r => r.PublishedAt)).Nodup ∧
    (analyzeReleases sampleReleasesJump "abc123").map (fun e => (e.Tag, e.Severity))
      = [("v2.0.0", SeverityFeature), ("v1.5.0", SeverityFeature),
         ("v1.4.0", SeverityFeature)] ∧
    (∀ r : Release, majorJump { i := 0, prevMajor := -1, infos := [] } r = false) := by
  refine ⟨by decide, by decide, by decide, ?_⟩
  intro r
  unfold majorJump
  cases majorOf r <;> rfl


/-! ## C9, C10: the status classification of `get` -/

namespace github

/-- The fetch after a cache miss (or with caching disabled), a request that
could be built and a response that could be read: the status classification
and what follows it. -/
theorem get_response {α : Type} (c : Client) (net : Net)
    (unmarshal : List Nat → Except String α) (w : World) (url : String)
    (StatusCode : Int) (body : List Nat)
    (hmiss : c.noCache = true ∨ ∃ e, c.readCache w url = Except.error e)
    (hreq : net.newRequestError url = none)
    (hresp : net.roundTrip (c.request url) = RoundTrip.response StatusCode body) :
    c.get net unmarshal w url =
      if StatusCode = 404 then
        (Except.error (GetError.notFound url),
          { w with requests := w.requests ++ [c.request url] })
      else if StatusCode = 403 ∨ StatusCode = 429 then
        (Except.error GetError.rateLimited,
          { w with requests := w.requests ++ [c.request url] })
      else if StatusCode ≠ 200 then
        (Except.error (GetError.httpStatus StatusCode (body.take 200)),
          { w with requests := w.requests ++ [c.request url] })
      else
        (decodeInto unmarshal body,
          if c.noCache then { w with requests := w.requests ++ [c.request url] }
          else c.writeCache { w with requests := w.requests ++ [c.request url] } url body) := by
  have hcached : (if (!c.noCache) = true then
        match c.readCache w url with
        | Except.ok data => some data
        | Except.error _ => none
      else none) = (none : Option (List Nat)) := by
    rcases hmiss with h | ⟨e, h⟩
    · simp [h]
    · simp [h]
  have htake : body.take (min 200 body.length) = body.take 200 := by
    rcases Nat.le_total 200 body.length with h | h
    · rw [Nat.min_eq_left h]
    · rw [Nat.min_eq_right h, List.take_length, List.take_of_length_le h]
  unfold Client.get
  simp only [hcached, hreq, hresp, htake]
  split
  · rfl
  · split
    · rfl
    · split
      · rfl
      · cases c.noCache <;> rfl

/-- C9 (as stated, refuted): with an empty cache, a response with status 201,
204 or 206 makes `get` return the `HTTP <status>` error with the body snippet,
and the cache file of the URL is still missing afterwards: the outcome is not
treated as success. -/
theorem get_other_2xx_counterexample :
    (sampleClient.get (sampleNet 201 [123, 125]) sampleUnmarshal sampleWorld sampleURL).1
      = Except.error (GetError.httpStatus 201 [123, 125]) ∧
    (sampleClient.get (sampleNet 204 []) sampleUnmarshal sampleWorld sampleURL).1
      = Except.error (GetError.httpStatus 204 []) ∧
    (sampleClient.get (sampleNet 206 [91, 93]) sampleUnmarshal sampleWorld sampleURL).1
      = Except.error (GetError.httpStatus 206 [91, 93]) ∧
    (sampleClient.get (sampleNet 201 [123, 125]) sampleUnmarshal sampleWorld sampleURL).2.files
        (sampleClient.cachePath sampleURL) = none := by
  refine ⟨rfl, rfl, rfl, ?_⟩
  decide

/-- C9 (amended): after a cache miss (or with caching disabled), for a
response whose status is in the range 200..299: when the status is 200, `get`
returns what deserialising the body gives, with no status error, after writing
the body to the cache if caching is enabled; when the status is any other code
of the range, `get` returns the `HTTP <status>` error carrying the first 200
bytes of the body and leaves the cache as it was.  In both cases exactly the
one request is sent. -/
theorem get_2xx {α : Type} (c : Client) (net : Net)
    (unmarshal : List Nat → Except String α) (w : World) (url : String)
    (StatusCode : Int) (body : List Nat)
    (hmiss : c.noCache = true ∨ ∃ e, c.readCache w url = Except.error e)
    (hreq : net.newRequestError url = none)
    (hresp : net.roundTrip (c.request url) = RoundTrip.response StatusCode body)
    (h2xx : 200 ≤ StatusCode ∧ StatusCode ≤ 299) :
    (StatusCode = 200 →
      (c.get net unmarshal w url).1 = decodeInto unmarshal body ∧
      (c.get net unmarshal w url).2 =
        if c.noCache then { w with requests := w.requests ++ [c.request url] }
        else c.writeCache { w with requests := w.requests ++ [c.request url] } url body) ∧
    (StatusCode ≠ 200 →
      (c.get net unmarshal w url).1
        = Except.error (GetError.httpStatus StatusCode (body.take 200)) ∧
      (c.get net unmarshal w url).2 = { w with requests := w.requests ++ [c.request url] }) := by
  rw [get_response c net unmarshal w url StatusCode body hmiss hreq hresp]
  have h404 : StatusCode ≠ 404 := by omega
  have h403 : ¬ (StatusCode = 403 ∨ StatusCode = 429) := by omega
  simp only [h404, h403, if_false]
  constructor
  · intro h
    simp [h]
  · intro h
    simp [h]

/-- C9 (amended), at a response with status 200 and with status 204 on an
empty cache. -/
theorem get_2xx_witness :
    ((200 : Int) = 200 →
      (sampleClient.get (sampleNet 200 [91, 93]) sampleUnmarshal sampleWorld sampleURL).1
        = decodeInto sampleUnmarshal [91, 93] ∧
      (sampleClient.get (sampleNet 200 [91, 93]) sampleUnmarshal sampleWorld sampleURL).2 =
        if sampleClient.noCache then
          { sampleWorld with requests := sampleWorld.requests ++ [sampleClient.request sampleURL] }
        else sampleClient.writeCache
          { sampleWorld with requests := sampleWorld.requests ++ [sampleClient.request sampleURL] }
          sampleURL [91, 93]) ∧
    ((200 : Int) ≠ 200 →
      (sampleClient.get (sampleNet 200 [91, 93]) sampleUnmarshal sampleWorld sampleURL).1
        = Except.error (GetError.httpStatus 200 (List.take 200 [91, 93])) ∧
      (sampleClient.get (sampleNet 200 [91, 93]) sampleUnmarshal sampleWorld sampleURL).2 =
        { sampleWorld with
          requests := sampleWorld.requests ++ [sampleClient.request sampleURL] }) :=
  get_2xx sampleClient (sampleNet 200 [91, 93]) sampleUnmarshal sampleWorld sampleURL 200
    [91, 93] (Or.inr ⟨"stat failed", rfl⟩) rfl rfl (by decide)

/-- C10: after a cache miss (or with caching disabled), for a response whose
status is outside 200..299, `get` fails with an error chosen by the status:
the not-found error for 404, the rate-limited error (whose text tells to set
`GITHUB_TOKEN`) for 403 and 429, and otherwise the `HTTP <status>` error
carrying the first 200 bytes of the body, which is the whole body when that is
shorter.  The world afterwards differs from the one before only by the logged
request: no file of the cache is written. -/
theorem get_non_2xx {α : Type} (c : Client) (net : Net)
    (unmarshal : List Nat → Except String α) (w : World) (url : String)
    (StatusCode : Int) (body : List Nat)
    (hmiss : c.noCache = true ∨ ∃ e, c.readCache w url = Except.error e)
    (hreq : net.newRequestError url = none)
    (hresp : net.roundTrip (c.request url) = RoundTrip.response StatusCode body)
    (hnot : StatusCode < 200 ∨ 299 < StatusCode) :
    (c.get net unmarshal w url).1 =
      Except.error
        (if StatusCode = 404 then GetError.notFound url
         else if StatusCode = 403 ∨ StatusCode = 429 then GetError.rateLimited
         else GetError.httpStatus StatusCode (body.take 200)) ∧
    (body.take 200).length ≤ 200 ∧
    (body.length ≤ 200 → body.take 200 = body) ∧
    GetError.rateLimited.Error
      = utf8Bytes "rate limited — set GITHUB_TOKEN env var for higher limits" ∧
    (c.get net unmarshal w url).2 = { w with requests := w.requests ++ [c.request url] } ∧
    (c.get net unmarshal w url).2.files = w.files := by
  rw [get_response c net unmarshal w url StatusCode body hmiss hreq hresp]
  have h200 : StatusCode ≠ 200 := by omega
  refine ⟨?_, ?_, ?_, rfl, ?_, ?_⟩
  · split
    · rfl
    · split
      · rfl
      · simp [h200]
  · simp [List.length_take]
  · intro h
    exact List.take_of_length_le h
  · split
    · rfl
    · split
      · rfl
      · simp [h200]
  · split
    · rfl
    · split
      · rfl
      · simp [h200]

/-- C10, at a response with status 429 on an empty cache. -/
theorem get_non_2xx_witness :
    (sampleClient.get (sampleNet 429 [123, 125]) sampleUnmarshal sampleWorld sampleURL).1 =
      Except.error
        (if (429 : Int) = 404 then GetError.notFound sampleURL
         else if (429 : Int) = 403 ∨ (429 : Int) = 429 then GetError.rateLimited
         else GetError.httpStatus 429 (List.take 200 [123, 125])) ∧
    (List.take 200 [123, 125]).length ≤ 200 ∧
    ([123, 125].length ≤ 200 → List.take 200 [123, 125] = [123, 125]) ∧
    GetError.rateLimited.Error
      = utf8Bytes "rate limited — set GITHUB_TOKEN env var for higher limits" ∧
    (sampleClient.get (sampleNet 429 [123, 125]) sampleUnmarshal sampleWorld sampleURL).2 =
      { sampleWorld with
        requests := sampleWorld.requests ++ [sampleClient.request sampleURL] } ∧
    (sampleClient.get (sampleNet 429 [123, 125]) sampleUnmarshal sampleWorld sampleURL).2.files
      = sampleWorld.files :=
  get_non_2xx sampleClient (sampleNet 429 [123, 125]) sampleUnmarshal sampleWorld sampleURL 429
    [123, 125] (Or.inr ⟨"stat failed", rfl⟩) rfl rfl (by decide)

end github

/-! ## C17: `truncate` -/

namespace tui

/-- The bound the result of `truncate` is meant to respect. -/
theorem truncate_of_large_limit (s : String) (maxLen : Int) (h : maxLen ≤ 0 ∨ 3 ≤ maxLen) :
    ∃ r, truncate s maxLen = some r ∧
      (r.length : Int) ≤ (if maxLen > 0 then maxLen else 80) := by
  unfold truncate sliceTo
  by_cases h0 : maxLen ≤ 0
  · have hpos : ¬ maxLen > 0 := by omega
    simp only [h0, if_true, hpos, if_false]
    by_cases hlen : ((utf8Bytes s).length : Int) > 80
    · have hr : ¬ ((80 : Int) - 3 < 0 ∨ (80 : Int) - 3 > ((utf8Bytes s).length : Int)) := by omega
      simp only [hlen, if_true, hr, if_false]
      refine ⟨_, rfl, ?_⟩
      have h3 : (utf8Bytes "...").length = 3 := by decide
      have h77 : ((80 : Int) - 3).toNat = 77 := by decide
      simp only [List.length_append, List.length_take, h3, h77]
      omega
    · simp only [hlen, if_false]
      exact ⟨_, rfl, by omega⟩
  · have h3 : 3 ≤ maxLen := by omega
    have hpos : maxLen > 0 := by omega
    simp only [h0, if_false, hpos, if_true]
    by_cases hlen : ((utf8Bytes s).length : Int) > maxLen
    · have hr : ¬ (maxLen - 3 < 0 ∨ maxLen - 3 > ((utf8Bytes s).length : Int)) := by omega
      simp only [hlen, if_true, hr, if_false]
      refine ⟨_, rfl, ?_⟩
      have hd : (utf8Bytes "...").length = 3 := by decide
      simp only [List.length_append, List.length_take, hd]
      omega
    · simp only [hlen, if_false]
      exact ⟨_, rfl, by omega⟩

/-- C17 (the code at the failing inputs): for a string longer than the limit,
`truncate` with the limit 1 or 2 evaluates the slice expression `s[:maxLen-3]`
with a negative bound, which is a run-time panic; with the limits 3 and 0 the
same string is cut to "..." and left whole. -/
theorem truncate_small_limit_panics :
    truncate "feat!: remove legacy API" 1 = none ∧
    truncate "feat!: remove legacy API" 2 = none ∧
    truncate "feat!: remove legacy API" 3 = some (utf8Bytes "...") ∧
    truncate "feat!: remove legacy API" 0 = some (utf8Bytes "feat!: remove legacy API") := by
  decide

end tui

/-! ## C11: `cachePath` -/

namespace github

theorem cachePath_foldl (l : List Char) (acc : String) :
    l.foldl (fun safe r =>
      if (decide ('a' ≤ r) && decide (r ≤ 'z')) || (decide ('A' ≤ r) && decide (r ≤ 'Z'))
          || (decide ('0' ≤ r) && decide (r ≤ '9')) then
        safe ++ String.singleton r
      else
        safe ++ "_") acc = acc ++ String.mk (l.map safeChar) := by
  induction l generalizing acc with
  | nil =>
    apply String.ext
    simp
  | cons r rs ih =>
    rw [List.foldl_cons, ih]
    have hstep : (if (decide ('a' ≤ r) && decide (r ≤ 'z')) || (decide ('A' ≤ r) && decide (r ≤ 'Z'))
          || (decide ('0' ≤ r) && decide (r ≤ '9')) then
        acc ++ String.singleton r
      else
        acc ++ "_") = acc ++ String.singleton (safeChar r) := by
      unfold safeChar
      split <;> rfl
    rw [hstep]
    apply String.ext
    simp [String.singleton]

/-- The path of `cachePath` in terms of `safeName`. -/
theorem cachePath_eq (c : Client) (url : String) :
    c.cachePath url = filepathJoin c.cacheDir (safeName url ++ ".json") := by
  unfold Client.cachePath safeName
  rw [cachePath_foldl]
  have h0 : ("" : String) ++ String.mk (url.data.map safeChar)
      = String.mk (url.data.map safeChar) := by
    apply String.ext
    simp
  rw [h0]
  simp only [String.length]
  split
  · rfl
  · rename_i h
    rw [List.take_of_length_le (by omega)]

theorem filepathJoin_injective (dir a b : String)
    (h : filepathJoin dir (a ++ ".json") = filepathJoin dir (b ++ ".json")) : a = b := by
  unfold filepathJoin at h
  have hd := congrArg String.data h
  apply String.ext
  split at hd
  · simp only [String.data_append] at hd
    exact List.append_cancel_right hd
  · simp only [String.data_append, List.append_assoc] at hd
    exact List.append_cancel_right (List.append_cancel_left (List.append_cancel_left hd))

set_option maxRecDepth 20000

/-- C11 (as stated, refuted): the release-listing URLs of the repositories
`owner/a-b`, `owner/a_b` and `owner/a.b` are pairwise distinct and have the
same cache path, and so have two distinct URLs that agree on their first 200
characters. -/
theorem cachePath_collision_counterexample :
    releasesURL "owner" "a-b" ≠ releasesURL "owner" "a_b" ∧
    releasesURL "owner" "a_b" ≠ releasesURL "owner" "a.b" ∧
    sampleClient.cachePath (releasesURL "owner" "a-b")
      = sampleClient.cachePath (releasesURL "owner" "a_b") ∧
    sampleClient.cachePath (releasesURL "owner" "a_b")
      = sampleClient.cachePath (releasesURL "owner" "a.b") ∧
    longURL "/releases?per_page=30" ≠ longURL "x/releases?per_page=30" ∧
    (longURL "/releases?per_page=30").data.take 200
      = (longURL "x/releases?per_page=30").data.take 200 ∧
    sampleClient.cachePath (longURL "/releases?per_page=30")
      = sampleClient.cachePath (longURL "x/releases?per_page=30") := by
  refine ⟨by decide, by decide, ?_, ?_, by decide, by decide, ?_⟩
  · rw [cachePath_eq, cachePath_eq]
    exact congrArg _ (congrArg (fun s => s ++ ".json") (by decide))
  · rw [cachePath_eq, cachePath_eq]
    exact congrArg _ (congrArg (fun s => s ++ ".json") (by decide))
  · rw [cachePath_eq, cachePath_eq]
    exact congrArg _ (congrArg (fun s => s ++ ".json") (by decide))

set_option maxRecDepth 512

/-- C11 (amended): two request URLs have the same cache path exactly when they
agree after every character other than an ASCII letter or digit is replaced by
an underscore and the result is cut to its first 200 characters.  So distinct
URLs have distinct paths when they differ, within their first 200 characters,
in length or at a position where one of them has a letter or digit that the
other does not have; URLs that differ only in other characters, or only past
the first 200 characters, share one cache file. -/
theorem cachePath_eq_iff (c : Client) (u v : String) :
    c.cachePath u = c.cachePath v ↔
      (u.data.map safeChar).take 200 = (v.data.map safeChar).take 200 := by
  rw [cachePath_eq, cachePath_eq]
  constructor
  · intro h
    have := filepathJoin_injective c.cacheDir _ _ h
    exact congrArg String.data this
  · intro h
    unfold safeName
    rw [h]

end github

/-! ## C12: the cache round trip -/

namespace github

/-- A fetch that finds a fresh cache file returns its decoded content and
leaves the world as it was: no request is sent and no file is written. -/
theorem get_cache_hit {α : Type} (c : Client) (net : Net)
    (unmarshal : List Nat → Except String α) (w : World) (url : String) (data : List Nat)
    (hc : c.noCache = false) (hr : c.readCache w url = Except.ok data) :
    c.get net unmarshal w url = (decodeInto unmarshal data, w) := by
  unfold Client.get
  simp [hc, hr]

/-- A fetch that does not take the cache sends at most the one request it
built. -/
theorem get_miss_requests {α : Type} (c : Client) (net : Net)
    (unmarshal : List Nat → Except String α) (w : World) (url : String)
    (hmiss : c.noCache = true ∨ ∃ e, c.readCache w url = Except.error e) :
    (c.get net unmarshal w url).2.requests =
      w.requests ++ (if net.newRequestError url = none then [c.request url] else []) := by
  have hcached : (if (!c.noCache) = true then
        match c.readCache w url with
        | Except.ok data => some data
        | Except.error _ => none
      else none) = (none : Option (List Nat)) := by
    rcases hmiss with h | ⟨e, h⟩
    · simp [h]
    · simp [h]
  unfold Client.get
  simp only [hcached]
  cases hreq : net.newRequestError url with
  | some err => simp
  | none =>
    simp only [if_true]
    cases net.roundTrip (c.request url) with
    | doFailed err => rfl
    | readFailed err => rfl
    | response StatusCode body =>
      simp only
      split
      · rfl
      · split
        · rfl
        · split
          · rfl
          · unfold Client.writeCache
            cases c.noCache <;> cases w.writable <;> rfl

/-- With caching disabled a fetch does not depend on the files of the cache and
does not write any. -/
theorem get_noCache {α : Type} (c : Client) (net : Net)
    (unmarshal : List Nat → Except String α) (w : World) (url : String)
    (files : String → Option CacheFile) (hc : c.noCache = true) :
    (c.get net unmarshal w url).2.files = w.files ∧
    (c.get net unmarshal { w with files := files } url).1 = (c.get net unmarshal w url).1 := by
  unfold Client.get
  simp only [hc, Bool.not_true, Bool.false_eq_true, if_false]
  cases net.newRequestError url with
  | some err => exact ⟨rfl, rfl⟩
  | none =>
    simp only
    cases net.roundTrip (c.request url) with
    | doFailed err => exact ⟨rfl, rfl⟩
    | readFailed err => exact ⟨rfl, rfl⟩
    | response StatusCode body =>
      simp only
      split
      · exact ⟨rfl, rfl⟩
      · split
        · exact ⟨rfl, rfl⟩
        · split <;> exact ⟨rfl, rfl⟩

/-- What `readCache` finds in a world whose file for the URL is the one
`writeCache` wrote. -/
theorem readCache_after_writeCache (c : Client) (w w2 : World) (url : String)
    (data : List Nat) (hw : w.writable = true)
    (hfile : w2.files (c.cachePath url) = (c.writeCache w url data).files (c.cachePath url)) :
    c.readCache w2 url =
      if w2.now - w.now > 1 * hour then Except.error "cache expired" else Except.ok data := by
  have hwritten : (c.writeCache w url data).files (c.cachePath url)
      = some { data := data, modTime := w.now } := by
    simp [Client.writeCache, hw]
  unfold Client.readCache
  simp only [hfile, hwritten]

/-- C12: with caching enabled and a cache directory that can be written, in
every later world `w2` whose cache file for the URL is still the one
`writeCache(url, data)` wrote at time `w.now`: when less than one hour has
passed, `readCache(url)` returns exactly `data` and `get` returns the decoded
`data` leaving the world unchanged (no request sent, no file written); when
more than one hour has passed, `readCache(url)` fails and `get` sends exactly
one request, provided `http.NewRequest` accepts the URL (no request
otherwise).  With caching disabled `get` does not depend on the files of the
cache and leaves them unchanged. -/
theorem cache_round_trip {α : Type} (c : Client) (net : Net)
    (unmarshal : List Nat → Except String α) (w w2 : World) (url : String) (data : List Nat)
    (hc : c.noCache = false) (hw : w.writable = true)
    (hfile : w2.files (c.cachePath url) = (c.writeCache w url data).files (c.cachePath url)) :
    (w2.now - w.now < hour →
      c.readCache w2 url = Except.ok data ∧
      c.get net unmarshal w2 url = (decodeInto unmarshal data, w2)) ∧
    (w2.now - w.now > hour →
      c.readCache w2 url = Except.error "cache expired" ∧
      (c.get net unmarshal w2 url).2.requests =
        w2.requests ++ (if net.newRequestError url = none then [c.request url] else []) ∧
      (net.newRequestError url = none →
        (c.get net unmarshal w2 url).2.requests = w2.requests ++ [c.request url])) ∧
    (∀ (c' : Client) (w' : World) (files : String → Option CacheFile), c'.noCache = true →
      (c'.get net unmarshal w' url).2.files = w'.files ∧
      (c'.get net unmarshal { w' with files := files } url).1
        = (c'.get net unmarshal w' url).1) := by
  have hread := readCache_after_writeCache c w w2 url data hw hfile
  refine ⟨?_, ?_, ?_⟩
  · intro hfresh
    have hnot : ¬ (w2.now - w.now > 1 * hour) := by omega
    rw [if_neg hnot] at hread
    exact ⟨hread, get_cache_hit c net unmarshal w2 url data hc hread⟩
  · intro hstale
    have hexp : w2.now - w.now > 1 * hour := by omega
    rw [if_pos hexp] at hread
    have hreqs := get_miss_requests c net unmarshal w2 url (Or.inr ⟨_, hread⟩)
    refine ⟨hread, hreqs, ?_⟩
    intro hnone
    rw [hreqs, hnone]
    rfl
  · intro c' w' files hc'
    exact get_noCache c' net unmarshal w' url files hc'

/-- C12, at a payload written at time 1000 and read back half an hour and two
hours later (the world of the witness is the one half an hour later). -/
theorem cache_round_trip_witness :
    ((sampleWorldAt (1000 + 1800 * 1000000000)
          (sampleClient.writeCache sampleWorld sampleURL [91, 93]).files).now
        - sampleWorld.now < hour →
      sampleClient.readCache (sampleWorldAt (1000 + 1800 * 1000000000)
          (sampleClient.writeCache sampleWorld sampleURL [91, 93]).files) sampleURL
        = Except.ok [91, 93] ∧
      sampleClient.get (sampleNet 200 [123, 125]) sampleUnmarshal
          (sampleWorldAt (1000 + 1800 * 1000000000)
            (sampleClient.writeCache sampleWorld sampleURL [91, 93]).files) sampleURL
        = (decodeInto sampleUnmarshal [91, 93],
            sampleWorldAt (1000 + 1800 * 1000000000)
              (sampleClient.writeCache sampleWorld sampleURL [91, 93]).files)) ∧
    ((sampleWorldAt (1000 + 1800 * 1000000000)
          (sampleClient.writeCache sampleWorld sampleURL [91, 93]).files).now
        - sampleWorld.now > hour →
      sampleClient.readCache (sampleWorldAt (1000 + 1800 * 1000000000)
          (sampleClient.writeCache sampleWorld sampleURL [91, 93]).files) sampleURL
        = Except.error "cache expired" ∧
      (sampleClient.get (sampleNet 200 [123, 125]) sampleUnmarshal
          (sampleWorldAt (1000 + 1800 * 1000000000)
            (sampleClient.writeCache sampleWorld sampleURL [91, 93]).files) sampleURL).2.requests =
        (sampleWorldAt (1000 + 1800 * 1000000000)
            (sampleClient.writeCache sampleWorld sampleURL [91, 93]).files).requests
          ++ (if (sampleNet 200 [123, 125]).newRequestError sampleURL = none
              then [sampleClient.request sampleURL] else []) ∧
      ((sampleNet 200 [123, 125]).newRequestError sampleURL = none →
        (sampleClient.get (sampleNet 200 [123, 125]) sampleUnmarshal
          (sampleWorldAt (1000 + 1800 * 1000000000)
            (sampleClient.writeCache sampleWorld sampleURL [91, 93]).files) sampleURL).2.requests =
        (sampleWorldAt (1000 + 1800 * 1000000000)
            (sampleClient.writeCache sampleWorld sampleURL [91, 93]).files).requests
          ++ [sampleClient.request sampleURL])) ∧
    (∀ (c' : Client) (w' : World) (files : String → Option CacheFile), c'.noCache = true →
      (c'.get (sampleNet 200 [123, 125]) sampleUnmarshal w' sampleURL).2.files = w'.files ∧
      (c'.get (sampleNet 200 [123, 125]) sampleUnmarshal { w' with files := files } sampleURL).1
        = (c'.get (sampleNet 200 [123, 125]) sampleUnmarshal w' sampleURL).1) :=
  cache_round_trip sampleClient (sampleNet 200 [123, 125]) sampleUnmarshal sampleWorld
    (sampleWorldAt (1000 + 1800 * 1000000000)
      (sampleClient.writeCache sampleWorld sampleURL [91, 93]).files)
    sampleURL [91, 93] rfl rfl rfl

end github

/-! ## The matchers against the declarative reading of the patterns -/

theorem char_le_iff (a b : Char) : a ≤ b ↔ a.toNat ≤ b.toNat := by
  rw [Char.le_def, UInt32.le_def, BitVec.le_def]
  rfl

theorem char_toNat_ofNat_small (n : Nat) (h : n < 200) : (Char.ofNat n).toNat = n := by
  have hv : n.isValidChar := by
    left; omega
  simp only [Char.ofNat, hv, Char.toNat, Char.ofNatAux, dite_true]
  show (BitVec.ofNatLt n _).toNat = n
  rfl

theorem char_toLower_toNat (c : Char) :
    c.toLower.toNat = if 65 ≤ c.toNat ∧ c.toNat ≤ 90 then c.toNat + 32 else c.toNat := by
  unfold Char.toLower
  simp only [ge_iff_le]
  split
  · rename_i h
    exact char_toNat_ofNat_small _ (by omega)
  · rfl

theorem char_eq_iff_toNat (a b : Char) : a = b ↔ a.toNat = b.toNat := by
  constructor
  · intro h; rw [h]
  · intro h
    apply Char.ext
    apply UInt32.toNat.inj
    exact h

theorem isWordChar_iff (c : Char) :
    isWordChar c = true ↔
      (48 ≤ c.toNat ∧ c.toNat ≤ 57) ∨ (97 ≤ c.toNat ∧ c.toNat ≤ 122)
        ∨ (65 ≤ c.toNat ∧ c.toNat ≤ 90) ∨ c.toNat = 95 := by
  unfold isWordChar
  simp only [Bool.or_eq_true, Bool.and_eq_true, decide_eq_true_eq, beq_iff_eq, char_le_iff,
    char_eq_iff_toNat c '_']
  have h0 : ('0' : Char).toNat = 48 := by decide
  have h9 : ('9' : Char).toNat = 57 := by decide
  have ha : ('a' : Char).toNat = 97 := by decide
  have hz : ('z' : Char).toNat = 122 := by decide
  have hA : ('A' : Char).toNat = 65 := by decide
  have hZ : ('Z' : Char).toNat = 90 := by decide
  have hu : ('_' : Char).toNat = 95 := by decide
  rw [h0, h9, ha, hz, hA, hZ, hu]
  tauto

/-- A character whose lower-case form is a word character is one itself. -/
theorem isWordChar_of_toLower (c : Char) (h : isWordChar c.toLower = true) :
    isWordChar c = true := by
  rw [isWordChar_iff] at h ⊢
  rw [char_toLower_toNat] at h
  split at h <;> omega

/-- Under `(?i)` a `wordOnly` pattern character accepts word characters only. -/
theorem isWordChar_of_accepts (p c : Char) (hp : wordOnly p = true)
    (h : litAccepts true p c = true) : isWordChar c = true := by
  unfold wordOnly at hp
  simp only [Bool.and_eq_true, bne_iff_ne, ne_eq] at hp
  obtain ⟨⟨hw, hk⟩, hs⟩ := hp
  unfold litAccepts at h
  simp only [if_true, Bool.or_eq_true, Bool.and_eq_true, beq_iff_eq] at h
  rcases h with (h | h) | h
  · apply isWordChar_of_toLower
    rw [h]; exact hw
  · exact absurd h.1 hk
  · exact absurd h.1 hs

theorem searchFrom_exists (m : Option Char → List Char → Bool) (s : List Char)
    (prev : Option Char) (h : searchFrom m prev s = true) :
    ∃ pre suf, s = pre ++ suf ∧
      m (match pre.getLast? with | some c => some c | none => prev) suf = true := by
  induction s generalizing prev with
  | nil => exact ⟨[], [], rfl, by simpa [searchFrom] using h⟩
  | cons c cs ih =>
    simp only [searchFrom, Bool.or_eq_true] at h
    rcases h with h | h
    · exact ⟨[], c :: cs, rfl, by simpa using h⟩
    · obtain ⟨pre, suf, hcs, hm⟩ := ih (some c) h
      refine ⟨c :: pre, suf, by rw [hcs]; rfl, ?_⟩
      cases hp : pre.getLast? with
      | none =>
        have : pre = [] := List.getLast?_eq_none_iff.mp hp
        subst this
        simpa using hm
      | some d =>
        have : (c :: pre).getLast? = some d := by
          cases pre with
          | nil => simp at hp
          | cons e es => simpa [List.getLast?_cons_cons] using hp
        rw [this]
        simpa [hp] using hm

theorem matchLit_sound (fold : Bool) (pat s : List Char) (prev last : Option Char)
    (rest : List Char) (h : matchLit fold pat prev s = some (last, rest)) :
    ∃ word, s = word ++ rest ∧
      List.Forall₂ (fun c p => litAccepts fold p c = true) word pat ∧
      last = (match word.getLast? with | some c => some c | none => prev) := by
  induction pat generalizing s prev with
  | nil =>
    simp only [matchLit, Option.some.injEq, Prod.mk.injEq] at h
    exact ⟨[], by simp [h.2], List.Forall₂.nil, by simp [h.1]⟩
  | cons p ps ih =>
    cases s with
    | nil => simp [matchLit] at h
    | cons c cs =>
      simp only [matchLit] at h
      split at h
      · rename_i hacc
        obtain ⟨word, hcs, hf, hl⟩ := ih cs (some c) h
        refine ⟨c :: word, by rw [hcs]; rfl, List.Forall₂.cons hacc hf, ?_⟩
        cases hw : word.getLast? with
        | none =>
          have : word = [] := List.getLast?_eq_none_iff.mp hw
          subst this
          simpa using hl
        | some d =>
          have : (c :: word).getLast? = some d := by
            cases word with
            | nil => simp at hw
            | cons e es => simpa [List.getLast?_cons_cons] using hw
          rw [this]
          simpa [hw] using hl
      · exact absurd h (by simp)

theorem matchLit_complete (fold : Bool) (pat word rest : List Char) (prev : Option Char)
    (hf : List.Forall₂ (fun c p => litAccepts fold p c = true) word pat) :
    matchLit fold pat prev (word ++ rest)
      = some ((match word.getLast? with | some c => some c | none => prev), rest) := by
  induction hf generalizing prev with
  | nil => simp [matchLit]
  | @cons c p word ps hacc _ ih =>
    have hstep : matchLit fold (p :: ps) prev (c :: word ++ rest)
        = matchLit fold ps (some c) (word ++ rest) := by
      simp [matchLit, hacc]
    rw [hstep, ih (some c)]
    cases hw : word.getLast? with
    | none =>
      have : word = [] := List.getLast?_eq_none_iff.mp hw
      subst this
      simp
    | some d =>
      have : (c :: word).getLast? = some d := by
        cases word with
        | nil => simp at hw
        | cons e es => simpa [List.getLast?_cons_cons] using hw
      rw [this]

theorem forall₂_head {R : Char → Char → Prop} {l₁ l₂ : List Char} (h : List.Forall₂ R l₁ l₂)
    (p : Char) (hp : l₂.head? = some p) : ∃ c, l₁.head? = some c ∧ R c p := by
  cases h with
  | nil => simp at hp
  | cons hr _ =>
    simp only [List.head?_cons, Option.some.injEq] at hp
    subst hp
    exact ⟨_, rfl, hr⟩

theorem forall₂_getLast {R : Char → Char → Prop} {l₁ l₂ : List Char}
    (h : List.Forall₂ R l₁ l₂) (p : Char) (hp : l₂.getLast? = some p) :
    ∃ c, l₁.getLast? = some c ∧ R c p := by
  induction h with
  | nil => simp at hp
  | @cons a b t₁ t₂ hr ht ih =>
    cases ht with
    | nil =>
      simp only [List.getLast?_singleton, Option.some.injEq] at hp
      subst hp
      exact ⟨a, rfl, hr⟩
    | cons hr' ht' =>
      rw [List.getLast?_cons_cons] at hp ⊢
      exact ih hp

/-- The ends of a text that spells a `wordCue`: it begins and ends with a word
character. -/
theorem spellsCue_ends (word : List Char) (cue : String) (hc : wordCue cue = true)
    (hs : spellsCue word cue.data) :
    (∃ a, word.head? = some a ∧ isWordChar a = true) ∧
    (∃ b, word.getLast? = some b ∧ isWordChar b = true) := by
  unfold wordCue at hc
  split at hc
  · rename_i a b ha hb
    simp only [Bool.and_eq_true] at hc
    obtain ⟨c, hc1, hc2⟩ := forall₂_head hs a ha
    obtain ⟨d, hd1, hd2⟩ := forall₂_getLast hs b hb
    exact ⟨⟨c, hc1, isWordChar_of_accepts a c hc.1 hc2⟩,
      ⟨d, hd1, isWordChar_of_accepts b d hc.2 hd2⟩⟩
  · exact absurd hc (by simp)

theorem wordBoundary_left (prev : Option Char) (a : Char) (ha : isWordChar a = true) :
    wordBoundary prev (some a) = true ↔ ∀ c, prev = some c → isWordChar c = false := by
  unfold wordBoundary
  cases prev with
  | none => simp [ha]
  | some c => cases h : isWordChar c <;> simp [ha, h]

theorem wordBoundary_right (next : Option Char) (b : Char) (hb : isWordChar b = true) :
    wordBoundary (some b) next = true ↔ ∀ c, next = some c → isWordChar c = false := by
  unfold wordBoundary
  cases next with
  | none => simp [hb]
  | some c => cases h : isWordChar c <;> simp [hb, h]

/-- A search for `(?i)\b(w1|w2|...)\b` succeeds exactly on the texts that
contain one of the cues as a word, when every cue is a `wordCue`. -/
theorem cue_search_iff (cues : List String) (hcues : ∀ w ∈ cues, wordCue w = true)
    (text : String) :
    searchFrom (cueAt cues) none text.data = true ↔ containsCue cues text := by
  constructor
  · intro h
    obtain ⟨pre, suf, hsplit, hat⟩ := searchFrom_exists _ _ _ h
    have hprev : (match pre.getLast? with | some c => some c | none => (none : Option Char))
        = pre.getLast? := by
      cases pre.getLast? <;> rfl
    rw [hprev] at hat
    unfold cueAt at hat
    simp only [Bool.and_eq_true, List.any_eq_true] at hat
    obtain ⟨hb, w, hw, hmatch⟩ := hat
    cases hm : matchLit true w.data pre.getLast? suf with
    | none => simp [hm] at hmatch
    | some res =>
      obtain ⟨last, rest⟩ := res
      simp only [hm] at hmatch
      obtain ⟨word, hsuf, hspell, hlast⟩ := matchLit_sound _ _ _ _ _ _ hm
      obtain ⟨⟨a, ha1, ha2⟩, ⟨b, hb1, hb2⟩⟩ := spellsCue_ends word w (hcues w hw) hspell
      have hhead : suf.head? = some a := by
        rw [hsuf]
        cases word with
        | nil => simp at ha1
        | cons x xs =>
          simp only [List.head?_cons, Option.some.injEq] at ha1
          simp [ha1]
      rw [hhead] at hb
      rw [hb1] at hlast
      rw [hlast] at hmatch
      refine ⟨pre, word, rest, w, hw, ?_, hspell, ?_, ?_⟩
      · rw [hsplit, hsuf, List.append_assoc]
      · exact (wordBoundary_left _ a ha2).mp hb
      · exact (wordBoundary_right _ b hb2).mp hmatch
  · rintro ⟨before, word, after, cue, hcue, htext, hspell, hbefore, hafter⟩
    obtain ⟨⟨a, ha1, ha2⟩, ⟨b, hb1, hb2⟩⟩ := spellsCue_ends word cue (hcues cue hcue) hspell
    rw [htext, List.append_assoc]
    apply searchFrom_append
    have hprev : (match before.getLast? with | some c => some c | none => (none : Option Char))
        = before.getLast? := by
      cases before.getLast? <;> rfl
    rw [hprev]
    unfold cueAt
    have hhead : (word ++ after).head? = some a := by
      cases word with
      | nil => simp at ha1
      | cons x xs =>
        simp only [List.head?_cons, Option.some.injEq] at ha1
        simp [ha1]
    simp only [Bool.and_eq_true, List.any_eq_true]
    refine ⟨?_, cue, hcue, ?_⟩
    · rw [hhead]
      exact (wordBoundary_left _ a ha2).mpr hbefore
    · rw [matchLit_complete true cue.data word after _ hspell, hb1]
      exact (wordBoundary_right _ b hb2).mpr hafter

/-- The pattern `breakingRe` matches exactly the texts that contain one of its
cues as a word, in any letter case. -/
theorem breakingRe_iff (text : String) :
    breakingRe.MatchString text = true ↔ containsCue breakingRe.cues text :=
  cue_search_iff breakingRe.cues (by decide) text

/-- The pattern `deprecRe` matches exactly the texts that contain one of its
cues as a word, in any letter case. -/
theorem deprecRe_iff (text : String) :
    deprecRe.MatchString text = true ↔ containsCue deprecRe.cues text :=
  cue_search_iff deprecRe.cues (by decide) text

/-- The pattern `featBangRe` matches exactly the texts with a line that begins
with `<type>!:`. -/
theorem featBangRe_iff (text : String) :
    featBangRe.MatchString text = true ↔ hasBangHeader text := by
  constructor
  · intro h
    obtain ⟨pre, suf, hsplit, hat⟩ := searchFrom_exists _ _ _ h
    have hprev : (match pre.getLast? with | some c => some c | none => (none : Option Char))
        = pre.getLast? := by
      cases pre.getLast? <;> rfl
    rw [hprev] at hat
    unfold featBangRe.headerAt at hat
    simp only [Bool.and_eq_true, List.any_eq_true, Bool.or_eq_true] at hat
    obtain ⟨hline, t, ht, hmatch⟩ := hat
    cases hm : matchLit false (t.data ++ ['!', ':']) pre.getLast? suf with
    | none => simp [hm] at hmatch
    | some res =>
      obtain ⟨last, rest⟩ := res
      obtain ⟨word, hsuf, hspell, _⟩ := matchLit_sound _ _ _ _ _ _ hm
      have hword : word = t.data ++ ['!', ':'] := by
        have : List.Forall₂ (fun c p => c = p) word (t.data ++ ['!', ':']) := by
          refine List.Forall₂.imp ?_ hspell
          intro c p hcp
          simpa [litAccepts] using hcp
        exact List.forall₂_eq_eq_eq ▸ this
      refine ⟨pre, rest, t, ht, ?_, ?_⟩
      · rw [hsplit, hsuf, hword]
      · rcases hline with h1 | h1
        · left
          cases hp : pre.getLast? with
          | none => exact List.getLast?_eq_none_iff.mp hp
          | some c => simp [hp] at h1
        · right
          simpa using h1
  · rintro ⟨before, after, t, ht, htext, hline⟩
    exact featBangRe_of_header text before after t ht htext hline

/-! ## C14: the severity of a release entry -/

theorem entryAfter_entryOf (pre : List Release) (r : Release) :
    entryAfter pre r (entryOf (scanAfter pre) r) := by
  have hF : SeverityFeature.lt SeverityDeprecation = true := by decide
  have hB : SeverityBreaking.lt SeverityDeprecation = false := by decide
  refine ⟨rfl, ?_, ?_, ?_, ?_⟩
  · show SeverityFeature.toInt ≤ (textSeverity _ r).toInt
    unfold textSeverity
    generalize breakingRe.MatchString (r.Name ++ " " ++ r.Body) = b
    generalize deprecRe.MatchString (r.Name ++ " " ++ r.Body) = d
    cases b <;> cases d <;> cases majorJump (scanAfter pre) r <;> simp [hF, hB] <;> decide
  · intro hb
    have hm := (breakingRe_iff _).mpr hb
    show textSeverity _ r = SeverityBreaking
    simp [textSeverity, hm]
  · intro hnb hdp
    have hm : breakingRe.MatchString (r.Name ++ " " ++ r.Body) = false := by
      cases h : breakingRe.MatchString (r.Name ++ " " ++ r.Body) with
      | false => rfl
      | true => exact absurd ((breakingRe_iff _).mp h) hnb
    have hm2 := (deprecRe_iff _).mpr hdp
    show textSeverity _ r = _
    unfold textSeverity
    cases majorJump (scanAfter pre) r <;> simp [hm, hm2, hF, hB]
  · intro hnb hnd
    have hm : breakingRe.MatchString (r.Name ++ " " ++ r.Body) = false := by
      cases h : breakingRe.MatchString (r.Name ++ " " ++ r.Body) with
      | false => rfl
      | true => exact absurd ((breakingRe_iff _).mp h) hnb
    have hm2 : deprecRe.MatchString (r.Name ++ " " ++ r.Body) = false := by
      cases h : deprecRe.MatchString (r.Name ++ " " ++ r.Body) with
      | false => rfl
      | true => exact absurd ((deprecRe_iff _).mp h) hnd
    show textSeverity _ r = _
    unfold textSeverity
    cases majorJump (scanAfter pre) r <;> simp [hm, hm2]

theorem foldl_analyzeStep_infos (l : List Release) (st : ScanState) :
    ∃ es, (l.foldl analyzeStep st).infos = st.infos ++ es := by
  induction l generalizing st with
  | nil => exact ⟨[], by simp⟩
  | cons r rs ih =>
    rw [List.foldl_cons]
    obtain ⟨es, hes⟩ := ih (analyzeStep st r)
    cases hd : r.Draft with
    | true => exact ⟨es, by rw [hes, analyzeStep_draft st r hd]⟩
    | false =>
      exact ⟨entryOf st r :: es, by rw [hes, analyzeStep_nondraft st r hd]; simp⟩

theorem analyzeSorted_split (pre post : List Release) (r : Release) (hd : r.Draft = false) :
    ∃ rest, analyzeSorted (pre ++ r :: post)
      = analyzeSorted pre ++ entryOf (scanAfter pre) r :: rest := by
  obtain ⟨es, hes⟩ := foldl_analyzeStep_infos post (analyzeStep (scanAfter pre) r)
  refine ⟨es, ?_⟩
  unfold analyzeSorted
  rw [List.foldl_append, List.foldl_cons]
  show (post.foldl analyzeStep (analyzeStep (scanAfter pre) r)).infos = _
  rw [hes, analyzeStep_nondraft _ r hd]
  simp [scanAfter]

theorem previousMajor_nonneg (pre : List Release) (p : Int)
    (h : previousMajor pre = some p) : 0 ≤ p := by
  unfold previousMajor at h
  have hmem := List.mem_of_getLast?_eq_some h
  rw [List.mem_filterMap] at hmem
  obtain ⟨x, _, hx⟩ := hmem
  unfold majorOf at hx
  cases hs : semverRe.FindStringSubmatch x.TagName with
  | none => simp [hs] at hx
  | some g =>
    simp [hs] at hx
    rw [← hx]
    exact Atoi_nonneg _

theorem previousMajor_snoc (pre : List Release) (x : Release) :
    previousMajor (pre ++ [x])
      = if x.Draft then previousMajor pre
        else match majorOf x with
          | some m => some m
          | none => previousMajor pre := by
  unfold previousMajor
  cases hd : x.Draft with
  | true => simp [List.filter_append, List.filter_cons, hd]
  | false =>
    cases hm : majorOf x with
    | none => simp [List.filter_append, List.filter_cons, hd, List.filterMap_append, hm]
    | some m =>
      simp [List.filter_append, List.filter_cons, hd, List.filterMap_append, hm]

theorem scanAfter_state (pre : List Release) :
    (scanAfter pre).i = pre.length ∧
    (scanAfter pre).prevMajor = (previousMajor pre).getD (-1) := by
  induction pre using List.reverseRecOn with
  | nil => exact ⟨rfl, rfl⟩
  | append_singleton pre x ih =>
    have hstep : scanAfter (pre ++ [x]) = analyzeStep (scanAfter pre) x := by
      simp [scanAfter, List.foldl_append]
    rw [hstep, previousMajor_snoc]
    cases hd : x.Draft with
    | true =>
      rw [analyzeStep_draft _ x hd]
      simp [ih.1, ih.2]
    | false =>
      rw [analyzeStep_nondraft _ x hd]
      cases hm : majorOf x with
      | none => simp [ih.1, ih.2]
      | some m => simp [ih.1]

theorem majorJump_scanAfter (pre : List Release) (r : Release) :
    majorJump (scanAfter pre) r = true ↔
      ∃ major prev : Int, majorOf r = some major ∧ previousMajor pre = some prev ∧
        prev < major := by
  obtain ⟨hi, hp⟩ := scanAfter_state pre
  unfold majorJump
  cases hm : majorOf r with
  | none => simp
  | some major =>
    cases hq : previousMajor pre with
    | none =>
      rw [hq] at hp
      simp [hp]
    | some prev =>
      rw [hq] at hp
      have h0 := previousMajor_nonneg pre prev hq
      have hlen : 0 < pre.length := by
        cases pre with
        | nil => simp [previousMajor] at hq
        | cons a t => simp
      simp [hp, hi, h0, hlen]


set_option maxRecDepth 20000

/-- C14: a non-draft release `r` that stands after the releases `pre` in the
slice as `sort.Slice` left it gets the entry that follows the entries of `pre`,
and this entry has severity at least Feature; it is Breaking when the text
`Name + " " + Body` contains one of the cues breaking, BREAKING CHANGE,
incompatible, removed, migration required as a word in any letter case; when
the text contains none of these but one of the cues deprecated, deprecation,
will be removed, no longer supported, it is Deprecation unless the
major-version rule fired for `r` in the loop state reached after `pre`, in
which case it is Breaking; with no cue at all it is Feature unless that rule
fired.  Every non-draft release of the input has such a place, in whatever
order the sort leaves the slice.  The rule fires exactly when the tag of `r`
parses to a major number greater than that of the last non-draft release
before `r` whose tag parses.  Of the releases of `TestAnalyzeReleasesSeverity`,
v2.0.0 is Breaking, v1.5.0 Feature and v1.4.0 Deprecation; of the releases of
`sampleReleasesStays`, v2.0.0, met after v1.0.0 and with a deprecation cue
only, is Breaking. -/
theorem analyzeReleases_entry_severity (r : Release) (hd : r.Draft = false) :
    (∀ pre post : List Release, ∃ (e : ReleaseInfo) (rest : List ReleaseInfo),
      analyzeSorted (pre ++ r :: post) = analyzeSorted pre ++ e :: rest ∧
      (analyzeSorted pre).length = (pre.filter (fun x => !x.Draft)).length ∧
      entryAfter pre r e) ∧
    (∀ releases sorted : List Release, r ∈ releases → sorted.Perm releases →
      ∃ (pre post : List Release) (e : ReleaseInfo) (rest : List ReleaseInfo),
        sorted = pre ++ r :: post ∧
        analyzeSorted sorted = analyzeSorted pre ++ e :: rest ∧ entryAfter pre r e) ∧
    (∀ (releases : List Release) (commit : String), r ∈ releases →
      ∃ (pre post : List Release) (e : ReleaseInfo) (rest : List ReleaseInfo),
        sortSlice publishedAfter releases = pre ++ r :: post ∧
        analyzeReleases releases commit = analyzeSorted pre ++ e :: rest ∧
        entryAfter pre r e) ∧
    (∀ pre : List Release, majorJump (scanAfter pre) r = true ↔
      ∃ major prev : Int, majorOf r = some major ∧ previousMajor pre = some prev ∧
        prev < major) ∧
    (analyzeReleases sampleReleasesTest "abc123").map (fun e => (e.Tag, e.Severity))
      = [("v2.0.0", SeverityBreaking), ("v1.5.0", SeverityFeature),
         ("v1.4.0", SeverityDeprecation)] ∧
    (analyzeReleases sampleReleasesStays "abc123").map (fun e => (e.Tag, e.Severity))
      = [("v1.0.0", SeverityFeature), ("v2.0.0", SeverityBreaking),
         ("nightly", SeverityFeature)] := by
  have hat : ∀ pre post : List Release, ∃ (e : ReleaseInfo) (rest : List ReleaseInfo),
      analyzeSorted (pre ++ r :: post) = analyzeSorted pre ++ e :: rest ∧
      (analyzeSorted pre).length = (pre.filter (fun x => !x.Draft)).length ∧
      entryAfter pre r e := by
    intro pre post
    obtain ⟨rest, hrest⟩ := analyzeSorted_split pre post r hd
    refine ⟨entryOf (scanAfter pre) r, rest, hrest, ?_, entryAfter_entryOf pre r⟩
    have := (analyzeSorted_keys pre pre (List.Perm.refl pre)).length_eq
    simpa using this
  have hany : ∀ releases sorted : List Release, r ∈ releases → sorted.Perm releases →
      ∃ (pre post : List Release) (e : ReleaseInfo) (rest : List ReleaseInfo),
        sorted = pre ++ r :: post ∧
        analyzeSorted sorted = analyzeSorted pre ++ e :: rest ∧ entryAfter pre r e := by
    intro releases sorted hmem hp
    obtain ⟨pre, post, hsplit⟩ := List.append_of_mem (hp.mem_iff.mpr hmem)
    obtain ⟨e, rest, h1, _, h3⟩ := hat pre post
    exact ⟨pre, post, e, rest, hsplit, hsplit ▸ h1, h3⟩
  refine ⟨hat, hany, ?_, fun pre => majorJump_scanAfter pre r, by decide, by decide⟩
  intro releases commit hmem
  exact hany releases (sortSlice publishedAfter releases) hmem (sortSlice_perm publishedAfter releases)

/-- C14, at the release v2.0.0 of `sampleReleasesStays`, whose text contains a
deprecation cue and no breaking cue and which is met after v1.0.0, before
nightly: the major-version rule fires for it. -/
theorem analyzeReleases_entry_severity_witness :
    sampleStaysJump.Draft = false ∧
    (∃ (e : ReleaseInfo) (rest : List ReleaseInfo),
      analyzeSorted ([sampleStaysNewest] ++ sampleStaysJump :: [sampleStaysNightly])
        = analyzeSorted [sampleStaysNewest] ++ e :: rest ∧
      (analyzeSorted [sampleStaysNewest]).length
        = ([sampleStaysNewest].filter (fun x => !x.Draft)).length ∧
      entryAfter [sampleStaysNewest] sampleStaysJump e) ∧
    majorJump (scanAfter [sampleStaysNewest]) sampleStaysJump = true :=
  ⟨rfl,
    (analyzeReleases_entry_severity sampleStaysJump rfl).1
      [sampleStaysNewest] [sampleStaysNightly],
    by decide⟩

set_option maxRecDepth 512

/-! ## C15: whole message scanned, first line recorded -/

/-- The first line of a message is the part of the message before its first
newline. -/
theorem firstLineOf_spec (msg : String) :
    '\n' ∉ (firstLineOf msg).data ∧
    ∃ rest, msg.data = (firstLineOf msg).data ++ rest ∧ (rest = [] ∨ rest.head? = some '\n') := by
  unfold firstLineOf
  refine ⟨?_, msg.data.dropWhile (fun c => c != '\n'), ?_, ?_⟩
  · intro h
    have := List.mem_takeWhile_imp h
    simp at this
  · simp
  · have h := List.head?_dropWhile_not (fun c => c != '\n') msg.data
    cases hd : (msg.data.dropWhile (fun c => c != '\n')).head? with
    | none =>
      left
      cases hl : msg.data.dropWhile (fun c => c != '\n') with
      | nil => rfl
      | cons x xs => simp [hl] at hd
    | some x =>
      right
      rw [hd] at h
      simp only [bne_iff_ne, ne_eq, Bool.not_eq_true, bne_eq_false_iff_eq] at h
      simp [h]

/-- C15: when the comparison succeeded with a non-zero count, `BreakingMsgs`
holds, in commit order, the first lines of the commits whose message matches
the breaking signal, and `DeprecMsgs` the first lines of the commits whose
message matches the deprecation signal only.  A message that contains a
breaking cue as a word, in any letter case and on any of its lines, matches
the breaking signal, so that its first line is in `BreakingMsgs`; the first
line is the text before the first newline of the message, not the message.  A
message without a breaking cue, a deprecation cue and a bang header matches
neither signal and is recorded in neither list. -/
theorem Analyze_first_lines (client : Client) (plugin : Plugin) (compare : CompareResult)
    (hc : client.compareAnswer plugin.Owner plugin.Repo plugin.Commit plugin.Branch
      = Except.ok compare)
    (h0 : compare.TotalCommits ≠ 0) :
    (Analyze client plugin).1.BreakingMsgs =
      (compare.Commits.filter (fun c => breakingSignal c.Commit.Message)).map
        (fun c => firstLineOf c.Commit.Message) ∧
    (Analyze client plugin).1.DeprecMsgs =
      (compare.Commits.filter (fun c =>
          !breakingSignal c.Commit.Message && deprecRe.MatchString c.Commit.Message)).map
        (fun c => firstLineOf c.Commit.Message) ∧
    (∀ c ∈ compare.Commits, containsCue breakingRe.cues c.Commit.Message →
      breakingSignal c.Commit.Message = true ∧
      firstLineOf c.Commit.Message ∈ (Analyze client plugin).1.BreakingMsgs) ∧
    (∀ msg : String, '\n' ∉ (firstLineOf msg).data ∧
      ∃ rest, msg.data = (firstLineOf msg).data ++ rest ∧
        (rest = [] ∨ rest.head? = some '\n')) ∧
    (∀ msg : String, ¬ containsCue breakingRe.cues msg → ¬ containsCue deprecRe.cues msg →
      ¬ hasBangHeader msg →
      breakingSignal msg = false ∧ deprecRe.MatchString msg = false) := by
  rw [Analyze_scanned client plugin compare hc h0]
  refine ⟨rfl, rfl, ?_, firstLineOf_spec, ?_⟩
  · intro c hmem hcue
    have hsig : breakingSignal c.Commit.Message = true := by
      unfold breakingSignal
      rw [(breakingRe_iff _).mpr hcue]
      rfl
    refine ⟨hsig, ?_⟩
    show firstLineOf c.Commit.Message ∈ breakingLines compare.Commits
    unfold breakingLines
    exact List.mem_map.mpr ⟨c, List.mem_filter.mpr ⟨hmem, hsig⟩, rfl⟩
  · intro msg hb hd hh
    have h1 : breakingRe.MatchString msg = false := by
      cases h : breakingRe.MatchString msg with
      | false => rfl
      | true => exact absurd ((breakingRe_iff _).mp h) hb
    have h2 : featBangRe.MatchString msg = false := by
      cases h : featBangRe.MatchString msg with
      | false => rfl
      | true => exact absurd ((featBangRe_iff _).mp h) hh
    have h3 : deprecRe.MatchString msg = false := by
      cases h : deprecRe.MatchString msg with
      | false => rfl
      | true => exact absurd ((deprecRe_iff _).mp h) hd
    exact ⟨by simp [breakingSignal, h1, h2], h3⟩

/-- C15, at a comparison of three commits: the first has the cue word REMOVED
on its third line and is recorded by its first line, the second has no cue and
is recorded nowhere, the third is a deprecation. -/
theorem Analyze_first_lines_witness :
    ((Analyze sampleClientLines samplePlugin).1.BreakingMsgs = ["refactor: new loader"] ∧
      (Analyze sampleClientLines samplePlugin).1.DeprecMsgs
        = ["chore: deprecated old module"]) ∧
    ((Analyze sampleClientLines samplePlugin).1.BreakingMsgs =
      ((sampleCompare 3
        ["refactor: new loader\n\nThe old loader was REMOVED.", "feat: add new feature",
         "chore: deprecated old module"]).Commits.filter
          (fun c => breakingSignal c.Commit.Message)).map
        (fun c => firstLineOf c.Commit.Message) ∧
    (Analyze sampleClientLines samplePlugin).1.DeprecMsgs =
      ((sampleCompare 3
        ["refactor: new loader\n\nThe old loader was REMOVED.", "feat: add new feature",
         "chore: deprecated old module"]).Commits.filter (fun c =>
          !breakingSignal c.Commit.Message && deprecRe.MatchString c.Commit.Message)).map
        (fun c => firstLineOf c.Commit.Message) ∧
    (∀ c ∈ (sampleCompare 3
        ["refactor: new loader\n\nThe old loader was REMOVED.", "feat: add new feature",
         "chore: deprecated old module"]).Commits,
      containsCue breakingRe.cues c.Commit.Message →
      breakingSignal c.Commit.Message = true ∧
      firstLineOf c.Commit.Message ∈ (Analyze sampleClientLines samplePlugin).1.BreakingMsgs) ∧
    (∀ msg : String, '\n' ∉ (firstLineOf msg).data ∧
      ∃ rest, msg.data = (firstLineOf msg).data ++ rest ∧
        (rest = [] ∨ rest.head? = some '\n')) ∧
    (∀ msg : String, ¬ containsCue breakingRe.cues msg → ¬ containsCue deprecRe.cues msg →
      ¬ hasBangHeader msg →
      breakingSignal msg = false ∧ deprecRe.MatchString msg = false)) :=
  ⟨by decide,
   Analyze_first_lines sampleClientLines samplePlugin
    (sampleCompare 3
      ["refactor: new loader\n\nThe old loader was REMOVED.", "feat: add new feature",
       "chore: deprecated old module"])
    rfl (by decide)⟩

/-! ## C16: the order of the entries -/

theorem foldl_sinkLeft_of_no_less {α : Type} (less : α → α → Bool) (l acc : List α)
    (h : ∀ a ∈ l, ∀ b ∈ l ++ acc, less a b = false) :
    l.foldl (fun sorted x => sinkLeft less x sorted) acc = l.reverse ++ acc := by
  induction l generalizing acc with
  | nil => rfl
  | cons x xs ih =>
    have hx : sinkLeft less x acc = x :: acc := by
      cases acc with
      | nil => rfl
      | cons y rest =>
        have : less x y = false :=
          h x (List.mem_cons_self _ _) y (by simp)
        simp [sinkLeft, this]
    rw [List.foldl_cons, hx, ih]
    · simp
    · intro a ha b hb
      apply h a (List.mem_cons_of_mem _ ha) b
      simp only [List.mem_append, List.mem_cons] at hb ⊢
      tauto

/-- A slice in which no element is less than another is left as it is. -/
theorem sortSlice_of_no_less {α : Type} (less : α → α → Bool) (l : List α)
    (h : ∀ a ∈ l, ∀ b ∈ l, less a b = false) : sortSlice less l = l := by
  unfold sortSlice
  rw [foldl_sinkLeft_of_no_less less l [] (by simpa using h)]
  simp

/-- The insertion sort is stable: the releases published at one time come out
in the order they went in. -/
theorem sortSlice_publishedAfter_stable (releases : List Release) (p : Release → Bool)
    (t : Int) :
    ((sortSlice publishedAfter releases).filter p).filter (fun r => r.PublishedAt = t)
      = (releases.filter p).filter (fun r => r.PublishedAt = t) := by
  rw [← sortSlice_filter publishedAfter publishedAfter_strictWeak,
    ← sortSlice_filter publishedAfter publishedAfter_strictWeak]
  apply sortSlice_of_no_less
  intro a ha b hb
  have h1 := (List.mem_filter.mp ha).2
  have h2 := (List.mem_filter.mp hb).2
  simp only [decide_eq_true_eq] at h1 h2
  simp [publishedAfter, h1, h2]

theorem sortSliceResult_sortSlice {α : Type} (less : α → α → Bool) (hw : StrictWeak less)
    (l : List α) : SortSliceResult less l (sortSlice less l) :=
  ⟨sortSlice_perm less l, sortSlice_pairwise less hw l, fun _ => rfl⟩

set_option maxRecDepth 20000

/-- C16 (as stated, refuted): `sort.Slice` on the 13 releases of
`sampleReleases13`, in which `x1` stands before `x2` and both are published at
time 91, leaves a slice that is ordered newest first and in which `x2` stands
before `x1`, and the entries of `analyzeReleases` come out in that order: the
two releases with identical publish times have not kept their input order. -/
theorem analyzeReleases_ties_reordered_counterexample :
    sampleReleases13.length = 13 ∧
    ((sampleReleases13.filter (fun r => r.PublishedAt = 91)).map (fun r => r.TagName)
      = ["x1", "x2"]) ∧
    SortSliceResult publishedAfter sampleReleases13 (pdqsort13 publishedAfter sampleReleases13) ∧
    ((pdqsort13 publishedAfter sampleReleases13).map (fun r => r.TagName)
      = ["r100", "r99", "r98", "r97", "r96", "r95", "r94", "r93", "r92", "x2", "x1", "r90",
         "r89"]) ∧
    ((analyzeSorted (pdqsort13 publishedAfter sampleReleases13)).map (fun e => e.Tag)
      = ["r100", "r99", "r98", "r97", "r96", "r95", "r94", "r93", "r92", "x2", "x1", "r90",
         "r89"]) := by
  refine ⟨by decide, by decide, ⟨by decide, by decide, ?_⟩, by decide, by decide⟩
  intro h
  exact absurd h (by decide)

set_option maxRecDepth 512

/-- C16 (amended): whatever slice `sorted` the call of `sort.Slice` leaves (a
permutation of the releases without inversions, and the result of the
insertion sort when there are at most 12 releases), the entries of
`analyzeReleases` are the entries of the non-draft releases in the order of
that slice, which is non-increasing in the publish time (newest first); and
when the list has at most 12 releases, the non-draft releases published at one
time keep their input order.  The three releases of
`TestAnalyzeReleasesSeverity`, all with the zero time, come out as v2.0.0,
v1.5.0, v1.4.0. -/
theorem analyzeReleases_order (releases : List Release) (commit : String) :
    SortSliceResult publishedAfter releases (sortSlice publishedAfter releases) ∧
    analyzeReleases releases commit = analyzeSorted (sortSlice publishedAfter releases) ∧
    (∀ sorted : List Release, SortSliceResult publishedAfter releases sorted →
      (analyzeSorted sorted).map entryKey
        = (sorted.filter (fun r => !r.Draft)).map releaseKey ∧
      (sorted.filter (fun r => !r.Draft)).Pairwise
        (fun a b => a.PublishedAt ≥ b.PublishedAt) ∧
      (releases.length ≤ 12 → ∀ t : Int,
        (sorted.filter (fun r => !r.Draft)).filter (fun r => r.PublishedAt = t)
          = (releases.filter (fun r => !r.Draft)).filter (fun r => r.PublishedAt = t))) ∧
    (analyzeReleases sampleReleasesTest "abc123").map (fun e => e.Tag)
      = ["v2.0.0", "v1.5.0", "v1.4.0"] := by
  refine ⟨sortSliceResult_sortSlice publishedAfter publishedAfter_strictWeak releases, rfl,
    ?_, by decide⟩
  intro sorted ⟨_, hsorted, hshort⟩
  refine ⟨?_, ?_, ?_⟩
  · unfold analyzeSorted
    rw [foldl_analyzeStep_keys]
    simp
  · apply List.Pairwise.filter
    refine List.Pairwise.imp ?_ hsorted
    intro a b h
    simp only [publishedAfter, decide_eq_false_iff_not] at h
    omega
  · intro hlen t
    rw [hshort hlen]
    exact sortSlice_publishedAfter_stable releases _ t

/-! ## C13: the analysis pipeline -/

theorem Analyze_answers (client : Client) (plugin : Plugin) :
    (Analyze client plugin).2.compareAnswer = client.compareAnswer ∧
    (Analyze client plugin).2.releasesAnswer = client.releasesAnswer := by
  unfold Analyze
  simp only [Client.CompareCommits, Client.GetReleases]
  cases client.compareAnswer plugin.Owner plugin.Repo plugin.Commit plugin.Branch with
  | error e => exact ⟨rfl, rfl⟩
  | ok compare =>
    simp only
    split
    · exact ⟨rfl, rfl⟩
    · exact ⟨rfl, rfl⟩

/-- The report of `Analyze` depends on the client through its answers only. -/
theorem Analyze_report_congr (c c' : Client) (plugin : Plugin)
    (h1 : c.compareAnswer = c'.compareAnswer) (h2 : c.releasesAnswer = c'.releasesAnswer) :
    (Analyze c plugin).1 = (Analyze c' plugin).1 := by
  unfold Analyze
  simp only [Client.CompareCommits, Client.GetReleases, h1, h2]
  cases c'.compareAnswer plugin.Owner plugin.Repo plugin.Commit plugin.Branch with
  | error e => rfl
  | ok compare =>
    simp only
    split
    · rfl
    · rfl

namespace tui

theorem applyFilter_fields (m : Model) :
    m.applyFilter.plugins = m.plugins ∧ m.applyFilter.reports = m.reports ∧
    m.applyFilter.done = m.done := by
  unfold Model.applyFilter
  simp only
  split <;> exact ⟨rfl, rfl, rfl⟩

theorem ite_prop {α : Type} (P : α → Prop) (c : Prop) [Decidable c] (a b : α)
    (ha : P a) (hb : P b) : P (if c then a else b) := by
  split
  · exact ha
  · exact hb

theorem handleKey_sameData (m : Model) (key : String) : m.sameData (m.handleKey key) := by
  have ha := applyFilter_fields { m with filter := (m.filter + 1) % 4 }
  have hb := applyFilter_fields { m with filter := (m.filter + 3) % 4 }
  unfold Model.handleKey
  repeat' apply ite_prop m.sameData
  all_goals first
    | exact ⟨rfl, rfl, rfl, Or.inl rfl⟩
    | exact ⟨rfl, rfl, rfl, Or.inr (Or.inr rfl)⟩
    | exact ⟨ha.1, ha.2.1, ha.2.2, Or.inl rfl⟩
    | exact ⟨hb.1, hb.2.1, hb.2.2, Or.inl rfl⟩

end tui
namespace tui

theorem Update_ui_sameData (m : Model) (msg : Msg)
    (hmsg : msg ≠ Msg.allDone ∧ ∀ i r, msg ≠ Msg.pluginAnalyzed i r) :
    ∃ r, m.Update msg = some r ∧ m.sameData r := by
  cases msg with
  | WindowSizeMsg w h => exact ⟨_, rfl, rfl, rfl, rfl, Or.inl rfl⟩
  | TickMsg =>
    unfold Model.Update
    cases m.loading
    · exact ⟨_, rfl, rfl, rfl, rfl, Or.inl rfl⟩
    · exact ⟨_, rfl, rfl, rfl, rfl, Or.inr (Or.inl rfl)⟩
  | pluginAnalyzed i r => exact absurd rfl (hmsg.2 i r)
  | allDone => exact absurd rfl hmsg.1
  | KeyMsg key => exact ⟨_, rfl, handleKey_sameData m key⟩
  | other => exact ⟨_, rfl, rfl, rfl, rfl, Or.inl rfl⟩

/-- A message that is not one of the two pipeline messages leaves the state of
the pipeline as it is. -/
theorem feed_ui (plugins : List Plugin) (client : Client) (p : Program) (j : Nat)
    (msg : Msg) (hmsg : msg ≠ Msg.allDone ∧ ∀ i r, msg ≠ Msg.pluginAnalyzed i r)
    (h : pipelineAt plugins client p j) : pipelineAt plugins client (p.feed msg) j := by
  obtain ⟨r, hr, h1, h2, h3, hcmd⟩ := Update_ui_sameData p.model msg hmsg
  obtain ⟨hj, hpl, hca, hra, hst, hin, hrep, hdone⟩ := h
  obtain ⟨m', cmd⟩ := r
  simp only at h1 h2 h3 hcmd
  unfold Program.feed
  rw [hr]
  simp only
  rcases hcmd with hc | hc | hc <;> subst hc <;>
    exact ⟨hj, by simp only [Program.schedule]; rw [h1, hpl], hca, hra, hst, hin,
      by simp only [Program.schedule]; rw [h2, hrep],
      by simp only [Program.schedule]; rw [h3]; exact hdone⟩

end tui
namespace tui

theorem set_stored {β : Type} (plugins : List Plugin) (f : Plugin → β) (z : β) (j : Nat)
    (plugin : Plugin) (hget : plugins[j]? = some plugin) :
    ((plugins.take j).map f ++ List.replicate (plugins.length - j) z).set j (f plugin)
      = (plugins.take (j + 1)).map f ++ List.replicate (plugins.length - (j + 1)) z := by
  have hj : j < plugins.length := by
    rcases Nat.lt_or_ge j plugins.length with h | h
    · exact h
    · rw [List.getElem?_eq_none h] at hget
      exact absurd hget (by simp)
  have hlen : ((plugins.take j).map f).length = j := by
    simp [List.length_take, Nat.min_eq_left (Nat.le_of_lt hj)]
  have hrep : List.replicate (plugins.length - j) z
      = z :: List.replicate (plugins.length - (j + 1)) z := by
    have : plugins.length - j = (plugins.length - (j + 1)) + 1 := by omega
    rw [this, List.replicate_succ]
  have htake : plugins.take (j + 1) = plugins.take j ++ [plugin] := by
    rw [List.take_succ, hget]
    rfl
  rw [hrep, htake, List.set_append_right _ _ (by rw [hlen]), hlen]
  simp

end tui
namespace tui

theorem analyzeNext_eq (m : Model) (plugins : List Plugin) (h : m.plugins = plugins) (i : Nat) :
    m.analyzeNext i = (NewModel plugins).analyzeNext i := by
  unfold Model.analyzeNext NewModel
  rw [h]

/-- The program after the analysis command `analyze i plugin`, the only one in
flight, has delivered its report. -/
theorem deliver_analysis (p : Program) (i : Nat) (plugin : Plugin)
    (hin : p.inflight = [Cmd.analyze i plugin]) (hi : i < p.model.reports.length) :
    ∃ m', p.model.Update (Msg.pluginAnalyzed i (Analyze p.client plugin).1)
        = some (m', m'.analyzeNext (i + 1)) ∧
      m'.plugins = p.model.plugins ∧
      m'.reports = p.model.reports.set i (Analyze p.client plugin).1 ∧
      m'.done = p.model.done ∧
      p.deliver 0 = ({ p with inflight := [], client := (Analyze p.client plugin).2,
                              model := m' } : Program).schedule (m'.analyzeNext (i + 1)) := by
  have hupd : ∃ m', p.model.Update (Msg.pluginAnalyzed i (Analyze p.client plugin).1)
        = some (m', m'.analyzeNext (i + 1)) ∧
      m'.plugins = p.model.plugins ∧
      m'.reports = p.model.reports.set i (Analyze p.client plugin).1 ∧
      m'.done = p.model.done := by
    unfold Model.Update
    simp only [hi, if_true]
    refine ⟨_, rfl, ?_, ?_, ?_⟩
    · rw [(applyFilter_fields _).1]
      cases p.model.plugins[i + 1]? <;> rfl
    · rw [(applyFilter_fields _).2.1]
      cases p.model.plugins[i + 1]? <;> rfl
    · rw [(applyFilter_fields _).2.2]
      cases p.model.plugins[i + 1]? <;> rfl
  obtain ⟨m', hu, h1, h2, h3⟩ := hupd
  refine ⟨m', hu, h1, h2, h3, ?_⟩
  unfold Program.deliver
  simp only [hin, List.getElem?_cons_zero, List.eraseIdx_cons_zero, Program.feed, hu]

end tui
namespace tui

theorem pipelineAt_reports_length (plugins : List Plugin) (client : Client) (p : Program)
    (j : Nat) (h : pipelineAt plugins client p j) (hj : j ≤ plugins.length) :
    p.model.reports.length = plugins.length := by
  obtain ⟨_, _, _, _, _, _, hrep, _⟩ := h
  rw [hrep, if_pos hj]
  simp only [List.length_append, List.length_map, List.length_take, List.length_replicate]
  omega

/-- The command in flight finishes: the pipeline moves on by one message and
the program keeps running. -/
theorem deliver_zero (plugins : List Plugin) (client : Client) (p : Program) (j : Nat)
    (h : pipelineAt plugins client p j) (hj : j ≤ plugins.length) :
    pipelineAt plugins client (p.deliver 0) (j + 1) ∧ (p.deliver 0).running = p.running := by
  have hlen := pipelineAt_reports_length plugins client p j h hj
  obtain ⟨_, hpl, hca, hra, hst, hin, hrep, hdone⟩ := h
  rw [if_pos hj] at hin hrep
  rcases Nat.lt_or_ge j plugins.length with hlt | hge
  · -- an analysis is in flight
    have hget : plugins[j]? = some plugins[j] := List.getElem?_eq_getElem hlt
    have hcmd : (NewModel plugins).analyzeNext j = Cmd.analyze j plugins[j] := by
      simp [Model.analyzeNext, NewModel, hget]
    rw [hcmd] at hin
    obtain ⟨m', _, h1, h2, h3, hdel⟩ :=
      deliver_analysis p j plugins[j] hin (by rw [hlen]; exact hlt)
    have hreport : (Analyze p.client plugins[j]).1 = reportOf client plugins[j] :=
      Analyze_report_congr _ _ _ hca hra
    have hans := Analyze_answers p.client plugins[j]
    have hnext : m'.analyzeNext (j + 1) = (NewModel plugins).analyzeNext (j + 1) :=
      analyzeNext_eq m' plugins (h1.trans hpl) (j + 1)
    have hreports : m'.reports = (plugins.take (j + 1)).map (reportOf client)
        ++ List.replicate (plugins.length - (j + 1)) zeroReport := by
      rw [h2, hrep, hreport]
      exact set_stored plugins (reportOf client) zeroReport j plugins[j] hget
    have hdone' : (m'.done = true ↔ j + 1 = plugins.length + 1) := by
      rw [h3, hdone]
      omega
    rw [hdel, hnext]
    rcases Nat.lt_or_ge (j + 1) plugins.length with hlt' | hge'
    · have hget' : plugins[j + 1]? = some plugins[j + 1] := List.getElem?_eq_getElem hlt'
      have hcmd' : (NewModel plugins).analyzeNext (j + 1) = Cmd.analyze (j + 1) plugins[j + 1] := by
        simp [Model.analyzeNext, NewModel, hget']
      rw [hcmd']
      refine ⟨⟨by omega, h1.trans hpl, hans.1.trans hca, hans.2.trans hra, ?_, ?_, ?_, hdone'⟩, rfl⟩
      · simp only [Program.schedule, hst]
        rw [Nat.min_eq_left (by omega), Nat.min_eq_left (by omega), List.range_succ (n := j + 1)]
      · simp only [Program.schedule]
        rw [if_pos (by omega), hcmd']
        rfl
      · simp only [Program.schedule]
        rw [if_pos (by omega)]
        exact hreports
    · have hget' : plugins[j + 1]? = none := List.getElem?_eq_none hge'
      have hcmd' : (NewModel plugins).analyzeNext (j + 1) = Cmd.allDone := by
        simp [Model.analyzeNext, NewModel, hget']
      rw [hcmd']
      refine ⟨⟨by omega, h1.trans hpl, hans.1.trans hca, hans.2.trans hra, ?_, ?_, ?_, hdone'⟩, rfl⟩
      · simp only [Program.schedule, hst]
        rw [Nat.min_eq_right (by omega), Nat.min_eq_right (by omega)]
      · simp only [Program.schedule]
        rw [if_pos (by omega), hcmd']
        rfl
      · simp only [Program.schedule]
        rw [if_pos (by omega)]
        exact hreports
  · -- the all-done command is in flight
    have hjn : j = plugins.length := by omega
    have hget : plugins[j]? = none := List.getElem?_eq_none hge
    have hcmd : (NewModel plugins).analyzeNext j = Cmd.allDone := by
      simp [Model.analyzeNext, NewModel, hget]
    rw [hcmd] at hin
    have hdel : p.deliver 0 =
        { p with inflight := [],
                 model := ({ p.model with loading := false, done := true,
                                          reports := SortReports p.model.reports }).applyFilter } := by
      unfold Program.deliver
      simp only [hin, List.getElem?_cons_zero, List.eraseIdx_cons_zero, Program.feed,
        Model.Update, Program.schedule]
    rw [hdel]
    refine ⟨⟨by omega, ?_, hca, hra, ?_, ?_, ?_, ?_⟩, rfl⟩
    · simp only [(applyFilter_fields _).1]
      exact hpl
    · simp only [hst]
      rw [Nat.min_eq_right (by omega), Nat.min_eq_right (by omega)]
    · simp only
      rw [if_neg (by omega)]
    · simp only [(applyFilter_fields _).2.1]
      rw [if_neg (by omega), hrep, hjn]
      simp
    · simp only [(applyFilter_fields _).2.2]
      simp [hjn]

/-- A command finishing, at any position of the commands in flight, leaves the
pipeline where it was or moves it on by one message. -/
theorem deliver_any (plugins : List Plugin) (client : Client) (p : Program) (j k : Nat)
    (h : pipelineAt plugins client p j) :
    pipelineAt plugins client (p.deliver k) j ∨ pipelineAt plugins client (p.deliver k) (j + 1) := by
  rcases Nat.lt_or_ge plugins.length j with hgt | hle
  · left
    have hin : p.inflight = [] := by
      have := h.2.2.2.2.2.1
      rwa [if_neg (by omega)] at this
    have : p.deliver k = p := by
      unfold Program.deliver
      simp [hin]
    rw [this]
    exact h
  · cases k with
    | zero => exact Or.inr (deliver_zero plugins client p j h hle).1
    | succ k =>
      left
      have hin : p.inflight = [(NewModel plugins).analyzeNext j] := by
        have := h.2.2.2.2.2.1
        rwa [if_pos hle] at this
      have : p.deliver (k + 1) = p := by
        unfold Program.deliver
        simp [hin]
      rw [this]
      exact h

theorem step_pipelineAt (plugins : List Plugin) (client : Client) (p : Program) (j : Nat)
    (e : Event) (h : pipelineAt plugins client p j) :
    pipelineAt plugins client (p.step e) j ∨ pipelineAt plugins client (p.step e) (j + 1) := by
  unfold Program.step
  cases p.running with
  | false => exact Or.inl h
  | true =>
    simp only [if_true]
    cases e with
    | deliver k => exact deliver_any plugins client p j k h
    | window w h' => exact Or.inl (feed_ui plugins client p j _ ⟨by simp, by simp⟩ h)
    | tick => exact Or.inl (feed_ui plugins client p j _ ⟨by simp, by simp⟩ h)
    | key s => exact Or.inl (feed_ui plugins client p j _ ⟨by simp, by simp⟩ h)
    | other => exact Or.inl (feed_ui plugins client p j _ ⟨by simp, by simp⟩ h)

theorem run_pipelineAt (plugins : List Plugin) (client : Client) (events : List Event)
    (p : Program) (j : Nat) (h : pipelineAt plugins client p j) :
    ∃ j', pipelineAt plugins client (p.run events) j' := by
  induction events generalizing p j with
  | nil => exact ⟨j, h⟩
  | cons e es ih =>
    unfold Program.run
    rw [List.foldl_cons]
    rcases step_pipelineAt plugins client p j e h with h' | h'
    · exact ih _ _ h'
    · exact ih _ _ h'

theorem start_pipelineAt (plugins : List Plugin) (client : Client) :
    pipelineAt plugins client (Program.start plugins client) 0 ∧
    (Program.start plugins client).running = true := by
  unfold Program.start Model.Init
  cases plugins with
  | nil =>
    refine ⟨⟨by omega, rfl, rfl, rfl, rfl, rfl, rfl, ?_⟩, rfl⟩
    simp [Program.schedule, Model.analyzeNext, NewModel]
  | cons x xs =>
    have hs : (let m := NewModel (x :: xs);
        ({ model := m, client := client, inflight := [], started := [], running := true }
          : Program).schedule (Cmd.batch Cmd.spinnerTick (m.analyzeNext 0)))
        = { model := NewModel (x :: xs), client := client, inflight := [Cmd.analyze 0 x],
            started := [0], running := true } := by
      simp [Program.schedule, Model.analyzeNext, NewModel]
    rw [hs]
    refine ⟨⟨by omega, rfl, rfl, rfl, ?_, ?_, ?_, ?_⟩, rfl⟩
    · simp [List.range_succ]
    · simp [Model.analyzeNext, NewModel]
    · simp [NewModel]
    · simp [NewModel]

theorem run_delivers (plugins : List Plugin) (client : Client) (count : Nat) (p : Program)
    (j : Nat) (h : pipelineAt plugins client p j) (hr : p.running = true)
    (hj : j + count ≤ plugins.length + 1) :
    pipelineAt plugins client (p.run (List.replicate count (Event.deliver 0))) (j + count) ∧
    (p.run (List.replicate count (Event.deliver 0))).running = true := by
  induction count generalizing p j with
  | zero => exact ⟨h, hr⟩
  | succ c ih =>
    have hstep : p.step (Event.deliver 0) = p.deliver 0 := by
      simp [Program.step, hr]
    obtain ⟨h1, h2⟩ := deliver_zero plugins client p j h (by omega)
    have := ih (p.deliver 0) (j + 1) h1 (by rw [h2]; exact hr) (by omega)
    unfold Program.run at this ⊢
    rw [List.replicate_succ, List.foldl_cons, hstep]
    have e : j + (c + 1) = j + 1 + c := by omega
    rw [e]
    exact this

end tui
namespace tui

/-- C13: for every plugin list, every client (so every outcome of the
analyses) and every sequence of events (commands finishing, keys, window
sizes, ticks), the program is in the state of the pipeline after some number
`j` of pipeline messages: the analyses handed to the runtime so far are those
of the plugins 0, 1, ... in input order, each once, the next one only after
the report of the one before has been stored; while the model is not done the
reports of the first `j` plugins stand at the positions 0 to `j-1`, in input
order, followed by zero values; the reports are ranked by `SortReports` exactly
when the all-done message, which is only sent after the last plugin, has been
handled.  When the commands are left to finish one after the other, all
plugins are analysed and the model ends done with the ranked reports, whatever
the reports hold.  In the sample run the comparison for `alpha` is rate
limited: its report has an error and severity OK, and the reports of `zeta`
and `beta` are there as well. -/
theorem pipeline_in_input_order (plugins : List Plugin) (client : Client)
    (events : List Event) :
    (∃ j, j ≤ plugins.length + 1 ∧
      ((Program.start plugins client).run events).started
        = List.range (min (j + 1) plugins.length) ∧
      ((Program.start plugins client).run events).inflight
        = (if j ≤ plugins.length then [(NewModel plugins).analyzeNext j] else []) ∧
      ((Program.start plugins client).run events).model.reports =
        (if j ≤ plugins.length then
          (plugins.take j).map (reportOf client)
            ++ List.replicate (plugins.length - j) zeroReport
         else SortReports (plugins.map (reportOf client))) ∧
      (((Program.start plugins client).run events).model.done = true
        ↔ j = plugins.length + 1)) ∧
    (((Program.start plugins client).run
        (List.replicate (plugins.length + 1) (Event.deliver 0))).model.done = true ∧
     ((Program.start plugins client).run
        (List.replicate (plugins.length + 1) (Event.deliver 0))).started
        = List.range plugins.length ∧
     ((Program.start plugins client).run
        (List.replicate (plugins.length + 1) (Event.deliver 0))).model.reports
        = SortReports (plugins.map (reportOf client))) ∧
    (((Program.start samplePlugins samplePipelineClient).run
        [Event.deliver 0, Event.tick, Event.key "tab", Event.deliver 0,
         Event.deliver 0]).model.reports.map
          (fun r => (r.Plugin.Name, r.Severity, decide (r.Error = "")))
        = [("zeta", SeverityFeature, true), ("alpha", SeverityOK, false),
           ("beta", SeverityBreaking, true)] ∧
     ((Program.start samplePlugins samplePipelineClient).run
        [Event.deliver 0, Event.tick, Event.key "tab", Event.deliver 0,
         Event.deliver 0, Event.deliver 0]).model.reports.map
          (fun r => (r.Plugin.Name, r.Severity, decide (r.Error = "")))
        = [("beta", SeverityBreaking, true), ("zeta", SeverityFeature, true),
           ("alpha", SeverityOK, false)]) := by
  obtain ⟨hstart, hrun⟩ := start_pipelineAt plugins client
  refine ⟨?_, ?_, ⟨by decide, by decide⟩⟩
  · obtain ⟨j, hj, _, _, _, hst, hin, hrep, hdone⟩ :=
      run_pipelineAt plugins client events _ 0 hstart
    exact ⟨j, hj, hst, hin, hrep, hdone⟩
  · obtain ⟨⟨_, _, _, _, hst, _, hrep, hdone⟩, _⟩ :=
      run_delivers plugins client (plugins.length + 1) _ 0 hstart hrun (by omega)
    rw [Nat.zero_add] at hst hrep hdone
    refine ⟨hdone.mpr rfl, ?_, ?_⟩
    · rw [hst, Nat.min_eq_right (by omega)]
    · rw [hrep, if_neg (by omega)]

end tui

end Nvimgotrack
